import Mathlib

/-!
Shallow embedding of the participant tally tool (src/app.js), centred on the
aggregation core (function aggregate, app.js lines 92-181), together with the
helper functions it calls.  Modelling conventions:

* A decoded file is a name plus an optional row list; the value none stands
  for a decode/parse failure of the whole file (readText / Papa.parse
  rejecting), some data for the parser output before the header slice.
* Cells are strings; reading a missing or out-of-range cell yields the empty
  string, exactly as String(row[idx]).trim() with the null guard does.
* The JS object used as a name-count table and the JS Map/Set are modelled as
  a count over a list of names and as insertion-ordered duplicate-free lists;
  prototype-chain quirks of raw JS objects are outside the model.
* IEEE-754 double arithmetic in the rate computation is modelled by exact
  rational arithmetic, and toFixed(6) by rounding to 6 decimal places.
* localeCompare with the ja locale is modelled by the total order on String.
-/

/-- One input file: its name and its decoded rows; none models a decode or
parse failure of the whole file. -/
structure SourceFile where
  name : String
  parsed : Option (List (List String))
  deriving DecidableEq, Repr

/-- Configuration handed to aggregate (app.js:93): zero-based column indices,
the condition string and the 1-indexed header row count. -/
structure Cfg where
  pkIdx : Nat
  nameIdx : Nat
  statusIdx : Nat
  condition : String
  headerRow : Nat
  deriving DecidableEq, Repr

/-- Whitespace trimming on both ends of a character list. -/
def trimChars (l : List Char) : List Char :=
  ((l.dropWhile Char.isWhitespace).reverse.dropWhile Char.isWhitespace).reverse

/-- Model of the JS String.prototype.trim used on every cell and on the
condition string. -/
def jsTrim (s : String) : String :=
  ⟨trimChars s.data⟩

/-- Model of the JS String.prototype.toLowerCase used in the status
comparison (app.js:142). -/
def jsLower (s : String) : String :=
  ⟨s.data.map Char.toLower⟩

/-- Cell access (app.js:127-129): row[idx] != null ? String(row[idx]).trim() : ''.
A missing or out-of-range cell reads as the empty string; present cells are
trimmed. -/
def getCell (row : List String) (idx : Nat) : String :=
  jsTrim (row.getD idx "")

/-- JS Set.add: insertion ordered, absorbing repeats. -/
def insertSet (l : List String) (x : String) : List String :=
  if x ∈ l then l else l ++ [x]

/-- The transient per-event sets (app.js:123-124). -/
structure EventSets where
  applicants : List String
  attendees : List String
  deriving DecidableEq, Repr

/-- Lookup in the master ledger, modelling master.get / master.has on the JS
Map (primaryKey to name and count, insertion ordered). -/
def mfind (m : List (String × String × Nat)) (pk : String) : Option (String × Nat) :=
  match m with
  | [] => none
  | e :: rest => if e.1 = pk then some (e.2.1, e.2.2) else mfind rest pk

/-- Increment the count of the entry for one key (app.js:152,
master.get(pk).count++). -/
def bumpKey (m : List (String × String × Nat)) (pk : String) :
    List (String × String × Nat) :=
  m.map (fun e => if e.1 = pk then (e.1, e.2.1, e.2.2 + 1) else e)

/-- Keys of the ledger, in insertion order. -/
def mkeys (m : List (String × String × Nat)) : List String :=
  m.map (fun e => e.1)

/-- Count stored for a key, zero when the key is absent. -/
def mcount (m : List (String × String × Nat)) (pk : String) : Nat :=
  ((mfind m pk).map (fun e => e.2)).getD 0

/-- Name stored for a key. -/
def mname (m : List (String × String × Nat)) (pk : String) : Option String :=
  (mfind m pk).map (fun e => e.1)

/-- Sum of all stored counts. -/
def msum (m : List (String × String × Nat)) : Nat :=
  (m.map (fun e => e.2.2)).sum

/-- The run-wide mutable state of aggregate (app.js:106-112 plus the skipped
list of app.js:103,119). -/
structure AggState where
  master : List (String × String × Nat)
  grossTotal : Nat
  attendTotal : Nat
  attendUniq : List String
  ignoredNoKey : Nat
  ignoredNoName : Nat
  processed : Nat
  skipped : List (String × String)
  deriving DecidableEq, Repr

/-- One iteration of the row loop (app.js:126-145): validate the three cells,
bump an ignored counter on a missing key or name, otherwise record the
first-seen name, add the key to the applicant set and, on a status match, to
the attendee set. -/
def stepRow (cfg : Cfg) (p : AggState × EventSets) (row : List String) :
    AggState × EventSets :=
  let pk := getCell row cfg.pkIdx
  let nm := getCell row cfg.nameIdx
  let status := getCell row cfg.statusIdx
  if pk = "" then ({ p.1 with ignoredNoKey := p.1.ignoredNoKey + 1 }, p.2)
  else if nm = "" then ({ p.1 with ignoredNoName := p.1.ignoredNoName + 1 }, p.2)
  else
    ((if (mfind p.1.master pk).isSome then p.1
      else { p.1 with master := p.1.master ++ [(pk, nm, 0)] }),
     { applicants := insertSet p.2.applicants pk,
       attendees :=
         if jsLower status = jsLower cfg.condition
         then insertSet p.2.attendees pk else p.2.attendees })

/-- The state component of stepRow on its own (the event sets never influence
the state update). -/
def stepS (cfg : Cfg) (s : AggState) (row : List String) : AggState :=
  let pk := getCell row cfg.pkIdx
  let nm := getCell row cfg.nameIdx
  if pk = "" then { s with ignoredNoKey := s.ignoredNoKey + 1 }
  else if nm = "" then { s with ignoredNoName := s.ignoredNoName + 1 }
  else if (mfind s.master pk).isSome then s
  else { s with master := s.master ++ [(pk, nm, 0)] }

/-- The event-set component of stepRow on its own (the state never influences
the event-set update). -/
def stepEv (cfg : Cfg) (ev : EventSets) (row : List String) : EventSets :=
  let pk := getCell row cfg.pkIdx
  let nm := getCell row cfg.nameIdx
  let status := getCell row cfg.statusIdx
  if pk = "" then ev
  else if nm = "" then ev
  else
    { applicants := insertSet ev.applicants pk,
      attendees :=
        if jsLower status = jsLower cfg.condition
        then insertSet ev.attendees pk else ev.attendees }

/-- Body of the attendee loop (app.js:151-154): bump the count of one key in
the ledger and insert the key into the run-wide unique attendee set. -/
def attStep (t : AggState) (pk : String) : AggState :=
  { t with master := bumpKey t.master pk,
           attendUniq := insertSet t.attendUniq pk }

/-- Folding one finished event into the run state (app.js:147-156): add the
set sizes to the totals, bump each attendee, extend the run-wide unique
attendee set and count the file as processed. -/
def foldEvent (s : AggState) (ev : EventSets) : AggState :=
  let s1 := { s with grossTotal := s.grossTotal + ev.applicants.length,
                     attendTotal := s.attendTotal + ev.attendees.length }
  let s2 := ev.attendees.foldl attStep s1
  { s2 with processed := s2.processed + 1 }

/-- Header slice done by parseCSV (app.js:82): drop the first headerRow rows. -/
def fileRows (cfg : Cfg) (data : List (List String)) : List (List String) :=
  data.drop cfg.headerRow

/-- One iteration of the file loop (app.js:114-157): a parse failure only
appends a parse_error entry to skipped; otherwise the rows are folded into
fresh event sets which are then folded into the run state. -/
def processFile (cfg : Cfg) (s : AggState) (f : SourceFile) : AggState :=
  match f.parsed with
  | none => { s with skipped := s.skipped ++ [(f.name, "parse_error")] }
  | some data =>
    let p := (fileRows cfg data).foldl (stepRow cfg) (s, ⟨[], []⟩)
    foldEvent p.1 p.2

/-- First-occurrence deduplication of a name list, modelling the key order of
the JS name-count object (app.js:96-97). -/
def dedupFirst : List String → List String
  | [] => []
  | n :: rest => n :: (dedupFirst rest).filter (fun m => m ≠ n)

/-- The names occurring more than once (app.js:98-100). -/
def dupNames (names : List String) : List String :=
  (dedupFirst names).filter (fun n => decide (1 < names.count n))

/-- The duplicate-file filter (app.js:95-103): files whose name is duplicated
are all excluded, and each distinct duplicated name yields one skipped
entry. -/
def dupFilter (files : List SourceFile) : List SourceFile × List (String × String) :=
  let dups := dupNames (files.map (fun f => f.name))
  (files.filter (fun f => decide (f.name ∉ dups)),
   dups.map (fun n => (n, "duplicate_filename")))

/-- The rate field (app.js:164-166): either the exact number literal zero, or
the 6-decimal rounding of the quotient. -/
inductive Rate where
  | intZero : Rate
  | fixed6 : ℚ → Rate
  deriving DecidableEq, Repr

/-- Rounding to 6 decimal places, the rational abstraction of toFixed(6). -/
def round6 (q : ℚ) : ℚ :=
  ((round (q * 1000000) : ℤ) : ℚ) / 1000000

/-- The summary block of the result (app.js:172-179). -/
structure Summary where
  grossTotal : Nat
  attendTotal : Nat
  attendUnique : Nat
  rate : Rate
  ignoredNoKey : Nat
  ignoredNoName : Nat
  deriving DecidableEq, Repr

/-- The value returned by aggregate (app.js:168-180). -/
structure AggResult where
  processedCount : Nat
  skipped : List (String × String)
  masterRows : List (String × String × Nat)
  summary : Summary
  deriving DecidableEq, Repr

/-- Lexicographic order on character lists, by code point. -/
def charListLE : List Char → List Char → Bool
  | [], _ => true
  | _ :: _, [] => false
  | a :: as, b :: bs =>
    if a = b then charListLE as bs else decide (a < b)

/-- Total order on strings standing in for localeCompare with the ja locale
(app.js:162): the comparator only needs some fixed total order on keys. -/
def strLE (a b : String) : Bool :=
  charListLE a.data b.data

/-- The masterRows comparator (app.js:162): count descending, ties broken by
primary key ascending. -/
def rowRel (a b : String × String × Nat) : Prop :=
  b.2.2 < a.2.2 ∨ (a.2.2 = b.2.2 ∧ strLE a.1 b.1 = true)

instance : DecidableRel rowRel := fun a b => by
  unfold rowRel
  exact inferInstance

/-- The fresh run state (app.js:106-112), with the duplicate-name skip list
already in place (app.js:103). -/
def initState (skipped0 : List (String × String)) : AggState :=
  { master := [], grossTotal := 0, attendTotal := 0, attendUniq := [],
    ignoredNoKey := 0, ignoredNoName := 0, processed := 0, skipped := skipped0 }

/-- The aggregation core (app.js:92-181). -/
def aggregate (cfg : Cfg) (files : List SourceFile) : AggResult :=
  let fp := dupFilter files
  let final := fp.1.foldl (processFile cfg) (initState fp.2)
  { processedCount := final.processed,
    skipped := final.skipped,
    masterRows := List.insertionSort rowRel final.master,
    summary :=
      { grossTotal := final.grossTotal,
        attendTotal := final.attendTotal,
        attendUnique := final.attendUniq.length,
        rate :=
          if 0 < final.grossTotal
          then Rate.fixed6 (round6 ((final.attendTotal : ℚ) / (final.grossTotal : ℚ)))
          else Rate.intZero,
        ignoredNoKey := final.ignoredNoKey,
        ignoredNoName := final.ignoredNoName } }

/-- The event sets produced by one row list, starting from empty sets; this is
the pure content of the row loop (app.js:123-145). -/
def evSets (cfg : Cfg) (rows : List (List String)) : EventSets :=
  rows.foldl (stepEv cfg) ⟨[], []⟩

/-- Rows of a source file as the loop sees them (empty for a parse failure). -/
def sourceRows (cfg : Cfg) (f : SourceFile) : List (List String) :=
  fileRows cfg (f.parsed.getD [])

/-- Unique applicant set of one file. -/
def fileApplicants (cfg : Cfg) (f : SourceFile) : List String :=
  (evSets cfg (sourceRows cfg f)).applicants

/-- Unique attendee set of one file. -/
def fileAttendees (cfg : Cfg) (f : SourceFile) : List String :=
  (evSets cfg (sourceRows cfg f)).attendees

/-- The files that are actually processed successfully: the survivors of the
duplicate filter whose decode succeeded. -/
def processedFiles (files : List SourceFile) : List SourceFile :=
  (dupFilter files).1.filter (fun f => f.parsed.isSome)

/-- Name on the first valid row carrying the given key, within one row list. -/
def firstValidName (cfg : Cfg) (pk : String) : List (List String) → Option String
  | [] => none
  | row :: rest =>
    if getCell row cfg.pkIdx = pk ∧ getCell row cfg.pkIdx ≠ "" ∧
        getCell row cfg.nameIdx ≠ ""
    then some (getCell row cfg.nameIdx)
    else firstValidName cfg pk rest

/-- Name on the first valid row carrying the given key, across a file list in
run order. -/
def firstValidNameRun (cfg : Cfg) (pk : String) (files : List SourceFile) :
    Option String :=
  files.foldl (fun acc f => acc <|> firstValidName cfg pk (sourceRows cfg f)) none

/-- Invariant of the per-event sets: attendee implies applicant and both lists
are duplicate free. -/
def EInv (ev : EventSets) : Prop :=
  ev.attendees ⊆ ev.applicants ∧ ev.applicants.Nodup ∧ ev.attendees.Nodup

/-- Invariant of the run state: ledger keys and the run-wide unique attendee
list are duplicate free. -/
def RunOk (s : AggState) : Prop :=
  (mkeys s.master).Nodup ∧ s.attendUniq.Nodup

/-- The run state reached after folding every surviving file, i.e. the value
of the mutable variables of aggregate when the file loop ends. -/
def runState (cfg : Cfg) (files : List SourceFile) : AggState :=
  (dupFilter files).1.foldl (processFile cfg) (initState (dupFilter files).2)

/-- Concrete configuration used in witness runs: key in column A, name in
column B, status in column C, condition approved, one header row. -/
def cfgW : Cfg :=
  { pkIdx := 0, nameIdx := 1, statusIdx := 2, condition := "approved", headerRow := 1 }

/-- Concrete file used in witness runs: K1 attends, K2 applies but does not. -/
def fW : SourceFile :=
  { name := "a.csv",
    parsed := some [["key", "name", "status"],
                    ["K1", "Alice", "Approved"],
                    ["K2", "Bob", "no"]] }

/-- Second concrete file: K1 appears again under another spelling. -/
def fW2 : SourceFile :=
  { name := "b.csv",
    parsed := some [["key", "name", "status"],
                    ["K1", "Alicia", "approved"]] }

/-- Concrete file whose decode fails. -/
def fBad : SourceFile :=
  { name := "bad.csv", parsed := none }

/-! Basic lemmas about the set and ledger primitives. -/

theorem mem_insertSet {l : List String} {x y : String} :
    x ∈ insertSet l y ↔ x ∈ l ∨ x = y := by
  unfold insertSet
  split
  · next h => simp only [iff_self_or]; rintro rfl; exact h
  · simp

theorem nodup_insertSet {l : List String} (h : l.Nodup) (y : String) :
    (insertSet l y).Nodup := by
  unfold insertSet
  split
  · exact h
  · next hy => simpa [List.nodup_append, h] using hy

theorem length_insertSet_le (l : List String) (y : String) :
    (insertSet l y).length ≤ l.length + 1 := by
  unfold insertSet
  split
  · omega
  · simp

theorem subset_insertSet (l : List String) (y : String) : l ⊆ insertSet l y := by
  intro x hx
  exact mem_insertSet.mpr (Or.inl hx)

theorem mfind_eq_none_iff {m : List (String × String × Nat)} {pk : String} :
    mfind m pk = none ↔ pk ∉ mkeys m := by
  induction m with
  | nil => simp [mfind, mkeys]
  | cons e rest ih =>
    by_cases h : e.1 = pk
    · simp [mfind, mkeys, h]
    · simp [mfind, mkeys, h, ih, Ne.symm h]

theorem mfind_isSome_iff {m : List (String × String × Nat)} {pk : String} :
    (mfind m pk).isSome = true ↔ pk ∈ mkeys m := by
  induction m with
  | nil => simp [mfind, mkeys]
  | cons e rest ih =>
    by_cases h : e.1 = pk
    · simp [mfind, mkeys, h]
    · simp [mfind, mkeys, h, ih, Ne.symm h]

theorem bumpKey_cons (e : String × String × Nat) (m : List (String × String × Nat))
    (k : String) :
    bumpKey (e :: m) k
      = (if e.1 = k then (e.1, e.2.1, e.2.2 + 1) else e) :: bumpKey m k := by
  simp [bumpKey]

theorem msum_cons (e : String × String × Nat) (m : List (String × String × Nat)) :
    msum (e :: m) = e.2.2 + msum m := by
  simp [msum]

theorem mkeys_cons (e : String × String × Nat) (m : List (String × String × Nat)) :
    mkeys (e :: m) = e.1 :: mkeys m := rfl

theorem mkeys_append (m : List (String × String × Nat)) (k nm : String) (c : Nat) :
    mkeys (m ++ [(k, nm, c)]) = mkeys m ++ [k] := by
  simp [mkeys]

theorem mkeys_bumpKey (m : List (String × String × Nat)) (k : String) :
    mkeys (bumpKey m k) = mkeys m := by
  induction m with
  | nil => rfl
  | cons e rest ih =>
    rw [bumpKey_cons, mkeys_cons, mkeys_cons, ih]
    by_cases hk : e.1 = k <;> simp [hk]

theorem mfind_append_single (m : List (String × String × Nat)) (k nm : String)
    (c : Nat) (pk : String) :
    mfind (m ++ [(k, nm, c)]) pk
      = (mfind m pk <|> if k = pk then some (nm, c) else none) := by
  induction m with
  | nil => simp [mfind]
  | cons e rest ih =>
    by_cases h : e.1 = pk
    · simp [mfind, h]
    · simp [mfind, h, ih]

theorem mfind_bumpKey (m : List (String × String × Nat)) (k pk : String) :
    mfind (bumpKey m k) pk
      = (mfind m pk).map (fun e => if k = pk then (e.1, e.2 + 1) else e) := by
  induction m with
  | nil => simp [mfind, bumpKey]
  | cons e rest ih =>
    obtain ⟨k0, n0, c0⟩ := e
    rw [bumpKey_cons]
    by_cases hk : k0 = k
    · subst hk
      by_cases hp : k0 = pk
      · subst hp
        simp [mfind]
      · simp [mfind, hp, ih]
    · by_cases hp : k0 = pk
      · subst hp
        have hkp : ¬ k = k0 := fun h => hk h.symm
        simp [mfind, hk, hkp]
      · simp [mfind, hk, hp, ih]

theorem mem_of_mfind_eq_some {m : List (String × String × Nat)} {pk : String}
    {e : String × Nat} (h : mfind m pk = some e) : (pk, e.1, e.2) ∈ m := by
  induction m with
  | nil => simp [mfind] at h
  | cons f rest ih =>
    obtain ⟨k0, n0, c0⟩ := f
    by_cases hf : k0 = pk
    · subst hf
      simp [mfind] at h
      simp [← h]
    · simp [mfind, hf] at h
      exact List.mem_cons_of_mem _ (ih h)

theorem mfind_eq_some_of_mem {m : List (String × String × Nat)}
    (hnd : (mkeys m).Nodup) {pk nm : String} {c : Nat} (h : (pk, nm, c) ∈ m) :
    mfind m pk = some (nm, c) := by
  induction m with
  | nil => simp at h
  | cons f rest ih =>
    obtain ⟨k0, n0, c0⟩ := f
    rw [mkeys_cons, List.nodup_cons] at hnd
    rcases List.mem_cons.mp h with h1 | h1
    · simp only [Prod.mk.injEq] at h1
      obtain ⟨ha, hb, hc⟩ := h1
      subst ha; subst hb; subst hc
      simp [mfind]
    · have hk0 : ¬ k0 = pk := by
        rintro rfl
        exact hnd.1 (by simpa [mkeys] using List.mem_map_of_mem (fun e => e.1) h1)
      simp [mfind, hk0]
      exact ih hnd.2 h1

theorem msum_bumpKey (m : List (String × String × Nat)) (k : String) :
    msum (bumpKey m k) = msum m + (mkeys m).count k := by
  induction m with
  | nil => simp [msum, bumpKey, mkeys]
  | cons e rest ih =>
    rw [bumpKey_cons, msum_cons, msum_cons, mkeys_cons, List.count_cons, ih]
    by_cases hk : e.1 = k <;> simp [hk] <;> omega

theorem msum_append (m : List (String × String × Nat)) (k nm : String) (c : Nat) :
    msum (m ++ [(k, nm, c)]) = msum m + c := by
  simp [msum]

theorem mem_dedupFirst {l : List String} {x : String} :
    x ∈ dedupFirst l ↔ x ∈ l := by
  induction l with
  | nil => simp [dedupFirst]
  | cons n rest ih =>
    simp only [dedupFirst, List.mem_cons, List.mem_filter]
    constructor
    · rintro (rfl | ⟨hx, _⟩)
      · exact Or.inl rfl
      · exact Or.inr (ih.mp hx)
    · rintro (rfl | hx)
      · exact Or.inl rfl
      · by_cases hxn : x = n
        · exact Or.inl hxn
        · exact Or.inr ⟨ih.mpr hx, by simpa using hxn⟩

theorem nodup_dedupFirst (l : List String) : (dedupFirst l).Nodup := by
  induction l with
  | nil => simp [dedupFirst]
  | cons n rest ih =>
    simp only [dedupFirst, List.nodup_cons]
    refine ⟨?_, ih.filter _⟩
    intro hmem
    exact (by simpa using (List.mem_filter.mp hmem).2 : ¬ n = n) rfl

/-! Order facts about the masterRows comparator. -/

theorem charListLE_total (x y : List Char) :
    charListLE x y = true ∨ charListLE y x = true := by
  induction x generalizing y with
  | nil => exact Or.inl rfl
  | cons a as ih =>
    cases y with
    | nil => exact Or.inr rfl
    | cons b bs =>
      rcases lt_trichotomy a b with h | h | h
      · exact Or.inl (by simp [charListLE, h.ne, h])
      · subst h
        rcases ih bs with h2 | h2
        · exact Or.inl (by simp [charListLE, h2])
        · exact Or.inr (by simp [charListLE, h2])
      · exact Or.inr (by simp [charListLE, h.ne, h])

theorem charListLE_trans {x y z : List Char} (h1 : charListLE x y = true)
    (h2 : charListLE y z = true) : charListLE x z = true := by
  induction x generalizing y z with
  | nil => rfl
  | cons a as ih =>
    cases y with
    | nil => simp [charListLE] at h1
    | cons b bs =>
      cases z with
      | nil => simp [charListLE] at h2
      | cons c cs =>
        by_cases hab : a = b
        · subst hab
          by_cases hbc : a = c
          · subst hbc
            simp [charListLE] at h1 h2 ⊢
            exact ih h1 h2
          · simp [charListLE, hbc] at h2 ⊢
            simpa [charListLE, hbc] using h2
        · simp [charListLE, hab] at h1
          by_cases hbc : b = c
          · subst hbc
            simp [charListLE, hab, h1]
          · simp [charListLE, hbc] at h2
            have hac : a < c := lt_trans h1 h2
            simp [charListLE, hac.ne, hac]

@[instance] theorem rowRel_isTotal : IsTotal (String × String × Nat) rowRel := by
  constructor
  intro a b
  unfold rowRel
  rcases lt_trichotomy a.2.2 b.2.2 with h | h | h
  · exact Or.inr (Or.inl h)
  · rcases charListLE_total a.1.data b.1.data with h2 | h2
    · exact Or.inl (Or.inr ⟨h, h2⟩)
    · exact Or.inr (Or.inr ⟨h.symm, h2⟩)
  · exact Or.inl (Or.inl h)

@[instance] theorem rowRel_isTrans : IsTrans (String × String × Nat) rowRel := by
  constructor
  intro a b c hab hbc
  unfold rowRel at *
  rcases hab with h1 | ⟨h1, h1l⟩
  · rcases hbc with h2 | ⟨h2, h2l⟩
    · exact Or.inl (h2.trans h1)
    · exact Or.inl (h2 ▸ h1)
  · rcases hbc with h2 | ⟨h2, h2l⟩
    · exact Or.inl (h1 ▸ h2)
    · exact Or.inr ⟨h1.trans h2, charListLE_trans h1l h2l⟩

/-! The row loop updates the state and the event sets independently. -/

theorem stepRow_eq (cfg : Cfg) (p : AggState × EventSets) (row : List String) :
    stepRow cfg p row = (stepS cfg p.1 row, stepEv cfg p.2 row) := by
  by_cases h1 : getCell row cfg.pkIdx = ""
  · simp [stepRow, stepS, stepEv, h1]
  · by_cases h2 : getCell row cfg.nameIdx = "" <;>
      simp [stepRow, stepS, stepEv, h1, h2]

theorem rowFold_eq (cfg : Cfg) (s : AggState) (ev : EventSets)
    (rows : List (List String)) :
    rows.foldl (stepRow cfg) (s, ev)
      = (rows.foldl (stepS cfg) s, rows.foldl (stepEv cfg) ev) := by
  induction rows generalizing s ev with
  | nil => rfl
  | cons r rs ih => simp [List.foldl_cons, stepRow_eq, ih]

/-! Lemmas about the state component of the row loop. -/
theorem stepS_eq_noKey {cfg : Cfg} {row : List String} (s : AggState)
    (h1 : getCell row cfg.pkIdx = "") :
    stepS cfg s row = { s with ignoredNoKey := s.ignoredNoKey + 1 } := by
  simp [stepS, h1]

theorem stepS_eq_noName {cfg : Cfg} {row : List String} (s : AggState)
    (h1 : ¬ getCell row cfg.pkIdx = "") (h2 : getCell row cfg.nameIdx = "") :
    stepS cfg s row = { s with ignoredNoName := s.ignoredNoName + 1 } := by
  simp [stepS, h1, h2]

theorem stepS_eq_seen {cfg : Cfg} {row : List String} {s : AggState}
    (h1 : ¬ getCell row cfg.pkIdx = "") (h2 : ¬ getCell row cfg.nameIdx = "")
    (h3 : (mfind s.master (getCell row cfg.pkIdx)).isSome = true) :
    stepS cfg s row = s := by
  simp [stepS, h1, h2, h3]

theorem stepS_eq_new {cfg : Cfg} {row : List String} {s : AggState}
    (h1 : ¬ getCell row cfg.pkIdx = "") (h2 : ¬ getCell row cfg.nameIdx = "")
    (h3 : ¬ (mfind s.master (getCell row cfg.pkIdx)).isSome = true) :
    stepS cfg s row
      = { s with master :=
            s.master ++ [(getCell row cfg.pkIdx, getCell row cfg.nameIdx, 0)] } := by
  simp [stepS, h1, h2, h3]

theorem stepS_cases (cfg : Cfg) (row : List String) (s : AggState) :
    stepS cfg s row = { s with ignoredNoKey := s.ignoredNoKey + 1 } ∨
    stepS cfg s row = { s with ignoredNoName := s.ignoredNoName + 1 } ∨
    stepS cfg s row = s ∨
    stepS cfg s row
      = { s with master :=
            s.master ++ [(getCell row cfg.pkIdx, getCell row cfg.nameIdx, 0)] } := by
  by_cases h1 : getCell row cfg.pkIdx = ""
  · exact Or.inl (stepS_eq_noKey s h1)
  by_cases h2 : getCell row cfg.nameIdx = ""
  · exact Or.inr (Or.inl (stepS_eq_noName s h1 h2))
  by_cases h3 : (mfind s.master (getCell row cfg.pkIdx)).isSome = true
  · exact Or.inr (Or.inr (Or.inl (stepS_eq_seen h1 h2 h3)))
  · exact Or.inr (Or.inr (Or.inr (stepS_eq_new h1 h2 h3)))

theorem stepS_fields (cfg : Cfg) (s : AggState) (row : List String) :
    (stepS cfg s row).grossTotal = s.grossTotal ∧
    (stepS cfg s row).attendTotal = s.attendTotal ∧
    (stepS cfg s row).attendUniq = s.attendUniq ∧
    (stepS cfg s row).processed = s.processed ∧
    (stepS cfg s row).skipped = s.skipped := by
  rcases stepS_cases cfg row s with h | h | h | h <;> rw [h]
  · exact ⟨rfl, rfl, rfl, rfl, rfl⟩
  · exact ⟨rfl, rfl, rfl, rfl, rfl⟩
  · exact ⟨rfl, rfl, rfl, rfl, rfl⟩
  · exact ⟨rfl, rfl, rfl, rfl, rfl⟩

theorem foldl_stepS_fields (cfg : Cfg) (rows : List (List String)) (s : AggState) :
    (rows.foldl (stepS cfg) s).grossTotal = s.grossTotal ∧
    (rows.foldl (stepS cfg) s).attendTotal = s.attendTotal ∧
    (rows.foldl (stepS cfg) s).attendUniq = s.attendUniq ∧
    (rows.foldl (stepS cfg) s).processed = s.processed ∧
    (rows.foldl (stepS cfg) s).skipped = s.skipped := by
  induction rows generalizing s with
  | nil => simp
  | cons r rs ih =>
    obtain ⟨h1, h2, h3, h4, h5⟩ := ih (stepS cfg s r)
    obtain ⟨g1, g2, g3, g4, g5⟩ := stepS_fields cfg s r
    simp only [List.foldl_cons]
    exact ⟨h1.trans g1, h2.trans g2, h3.trans g3, h4.trans g4, h5.trans g5⟩

theorem mcount_append_fresh {m : List (String × String × Nat)} {k : String}
    (h : mfind m k = none) (nm : String) (pk : String) :
    mcount (m ++ [(k, nm, 0)]) pk = mcount m pk := by
  unfold mcount
  rw [mfind_append_single]
  by_cases hk : k = pk
  · subst hk
    simp [h]
  · simp [hk]

theorem stepS_mcount (cfg : Cfg) (s : AggState) (row : List String) (pk : String) :
    mcount (stepS cfg s row).master pk = mcount s.master pk := by
  by_cases h1 : getCell row cfg.pkIdx = ""
  · rw [stepS_eq_noKey s h1]
  by_cases h2 : getCell row cfg.nameIdx = ""
  · rw [stepS_eq_noName s h1 h2]
  by_cases h3 : (mfind s.master (getCell row cfg.pkIdx)).isSome = true
  · rw [stepS_eq_seen h1 h2 h3]
  · rw [stepS_eq_new h1 h2 h3]
    exact mcount_append_fresh (Option.not_isSome_iff_eq_none.mp h3) _ pk

theorem foldl_stepS_mcount (cfg : Cfg) (rows : List (List String)) (s : AggState)
    (pk : String) :
    mcount ((rows.foldl (stepS cfg) s)).master pk = mcount s.master pk := by
  induction rows generalizing s with
  | nil => rfl
  | cons r rs ih => rw [List.foldl_cons, ih, stepS_mcount]

theorem stepS_msum (cfg : Cfg) (s : AggState) (row : List String) :
    msum (stepS cfg s row).master = msum s.master := by
  rcases stepS_cases cfg row s with h | h | h | h <;> rw [h] <;>
    simp [msum_append]

theorem foldl_stepS_msum (cfg : Cfg) (rows : List (List String)) (s : AggState) :
    msum ((rows.foldl (stepS cfg) s)).master = msum s.master := by
  induction rows generalizing s with
  | nil => rfl
  | cons r rs ih => rw [List.foldl_cons, ih, stepS_msum]

theorem stepS_nodup (cfg : Cfg) (s : AggState) (row : List String)
    (h : (mkeys s.master).Nodup) : (mkeys (stepS cfg s row).master).Nodup := by
  by_cases h1 : getCell row cfg.pkIdx = ""
  · rw [stepS_eq_noKey s h1]; exact h
  by_cases h2 : getCell row cfg.nameIdx = ""
  · rw [stepS_eq_noName s h1 h2]; exact h
  by_cases h3 : (mfind s.master (getCell row cfg.pkIdx)).isSome = true
  · rw [stepS_eq_seen h1 h2 h3]; exact h
  · rw [stepS_eq_new h1 h2 h3]
    show (mkeys (s.master ++ [(getCell row cfg.pkIdx, getCell row cfg.nameIdx, 0)])).Nodup
    rw [mkeys_append]
    have hnm : getCell row cfg.pkIdx ∉ mkeys s.master := by
      intro hmem
      exact h3 (mfind_isSome_iff.mpr hmem)
    simp [List.nodup_append, h, hnm]

theorem foldl_stepS_nodup (cfg : Cfg) (rows : List (List String)) (s : AggState)
    (h : (mkeys s.master).Nodup) :
    (mkeys ((rows.foldl (stepS cfg) s)).master).Nodup := by
  induction rows generalizing s with
  | nil => exact h
  | cons r rs ih =>
    rw [List.foldl_cons]
    exact ih _ (stepS_nodup cfg s r h)

theorem isSome_orElse {α : Type} (a b : Option α) :
    (a <|> b).isSome = (a.isSome || b.isSome) := by
  cases a <;> simp

theorem mname_append_single (m : List (String × String × Nat)) (k nm : String)
    (c : Nat) (pk : String) :
    mname (m ++ [(k, nm, c)]) pk
      = (mname m pk <|> if k = pk then some nm else none) := by
  unfold mname
  rw [mfind_append_single]
  cases mfind m pk with
  | none => by_cases hk : k = pk <;> simp [hk]
  | some e => simp

theorem mname_isSome_of_mfind {m : List (String × String × Nat)} {pk : String}
    (h : (mfind m pk).isSome = true) : ∃ y, mname m pk = some y := by
  obtain ⟨e, he⟩ := Option.isSome_iff_exists.mp h
  exact ⟨e.1, by simp [mname, he]⟩

theorem foldl_stepS_mname (cfg : Cfg) (rows : List (List String)) (s : AggState)
    (pk : String) :
    mname ((rows.foldl (stepS cfg) s)).master pk
      = (mname s.master pk <|> firstValidName cfg pk rows) := by
  induction rows generalizing s with
  | nil => simp [firstValidName]
  | cons row rest ih =>
    rw [List.foldl_cons, ih]
    by_cases h1 : getCell row cfg.pkIdx = ""
    · rw [stepS_eq_noKey s h1]
      have hg : firstValidName cfg pk (row :: rest) = firstValidName cfg pk rest := by
        simp [firstValidName, h1]
      rw [hg]
    by_cases h2 : getCell row cfg.nameIdx = ""
    · rw [stepS_eq_noName s h1 h2]
      have hg : firstValidName cfg pk (row :: rest) = firstValidName cfg pk rest := by
        simp [firstValidName, h2]
      rw [hg]
    by_cases hpk : getCell row cfg.pkIdx = pk
    · have h1p : ¬ pk = "" := hpk ▸ h1
      have hg : firstValidName cfg pk (row :: rest)
          = some (getCell row cfg.nameIdx) := by
        simp [firstValidName, hpk, h1p, h2]
      rw [hg]
      by_cases h3 : (mfind s.master (getCell row cfg.pkIdx)).isSome = true
      · rw [stepS_eq_seen h1 h2 h3]
        obtain ⟨y, hy⟩ := mname_isSome_of_mfind (hpk ▸ h3)
        simp [hy]
      · rw [stepS_eq_new h1 h2 h3]
        have hn : mname s.master pk = none := by
          have : mfind s.master pk = none :=
            Option.not_isSome_iff_eq_none.mp (hpk ▸ h3)
          simp [mname, this]
        show (mname (s.master ++ [(getCell row cfg.pkIdx, getCell row cfg.nameIdx, 0)]) pk
            <|> firstValidName cfg pk rest) = _
        rw [mname_append_single, hn, hpk]
        simp
    · have hg : firstValidName cfg pk (row :: rest) = firstValidName cfg pk rest := by
        simp [firstValidName, hpk]
      rw [hg]
      by_cases h3 : (mfind s.master (getCell row cfg.pkIdx)).isSome = true
      · rw [stepS_eq_seen h1 h2 h3]
      · rw [stepS_eq_new h1 h2 h3]
        show (mname (s.master ++ [(getCell row cfg.pkIdx, getCell row cfg.nameIdx, 0)]) pk
            <|> firstValidName cfg pk rest) = _
        rw [mname_append_single]
        simp [hpk]

theorem mname_isSome_iff {m : List (String × String × Nat)} {pk : String} :
    (mname m pk).isSome = true ↔ pk ∈ mkeys m := by
  rw [← mfind_isSome_iff]
  unfold mname
  cases mfind m pk <;> simp

theorem foldl_stepS_mem_mkeys (cfg : Cfg) (rows : List (List String)) (s : AggState)
    (pk : String) :
    pk ∈ mkeys ((rows.foldl (stepS cfg) s)).master
      ↔ pk ∈ mkeys s.master ∨ (firstValidName cfg pk rows).isSome = true := by
  rw [← mname_isSome_iff, foldl_stepS_mname, isSome_orElse]
  simp [mname_isSome_iff]

theorem firstValidName_isSome_iff (cfg : Cfg) (pk : String)
    (rows : List (List String)) :
    (firstValidName cfg pk rows).isSome = true
      ↔ ∃ row ∈ rows, getCell row cfg.pkIdx = pk ∧ ¬ getCell row cfg.pkIdx = ""
          ∧ ¬ getCell row cfg.nameIdx = "" := by
  induction rows with
  | nil => simp [firstValidName]
  | cons row rest ih =>
    by_cases hg : getCell row cfg.pkIdx = pk ∧ ¬ getCell row cfg.pkIdx = ""
        ∧ ¬ getCell row cfg.nameIdx = ""
    · obtain ⟨hc, hc1, hc2⟩ := hg
      have h1p : ¬ pk = "" := hc ▸ hc1
      have hfv : firstValidName cfg pk (row :: rest) = some (getCell row cfg.nameIdx) := by
        simp [firstValidName, hc, h1p, hc2]
      rw [hfv]
      constructor
      · intro _
        exact ⟨row, List.mem_cons_self row rest, hc, hc1, hc2⟩
      · intro _
        rfl
    · have : firstValidName cfg pk (row :: rest) = firstValidName cfg pk rest := by
        simp only [firstValidName]
        rw [if_neg hg]
      rw [this, ih]
      constructor
      · rintro ⟨r, hr, hrr⟩
        exact ⟨r, List.mem_cons_of_mem _ hr, hrr⟩
      · rintro ⟨r, hr, hrr⟩
        rcases List.mem_cons.mp hr with rfl | hr2
        · exact absurd hrr hg
        · exact ⟨r, hr2, hrr⟩

/-! Lemmas about the event-set component of the row loop. -/

theorem stepEv_eq_skip {cfg : Cfg} {row : List String} (ev : EventSets)
    (h : getCell row cfg.pkIdx = "" ∨ getCell row cfg.nameIdx = "") :
    stepEv cfg ev row = ev := by
  rcases h with h | h
  · simp [stepEv, h]
  · by_cases h1 : getCell row cfg.pkIdx = "" <;> simp [stepEv, h1, h]

theorem stepEv_eq_valid {cfg : Cfg} {row : List String} (ev : EventSets)
    (h1 : ¬ getCell row cfg.pkIdx = "") (h2 : ¬ getCell row cfg.nameIdx = "") :
    stepEv cfg ev row
      = { applicants := insertSet ev.applicants (getCell row cfg.pkIdx),
          attendees :=
            if jsLower (getCell row cfg.statusIdx) = jsLower cfg.condition
            then insertSet ev.attendees (getCell row cfg.pkIdx)
            else ev.attendees } := by
  simp [stepEv, h1, h2]

theorem stepEv_inv (cfg : Cfg) (ev : EventSets) (row : List String)
    (h : EInv ev) : EInv (stepEv cfg ev row) := by
  obtain ⟨hsub, hnda, hndt⟩ := h
  by_cases h1 : getCell row cfg.pkIdx = ""
  · rw [stepEv_eq_skip ev (Or.inl h1)]; exact ⟨hsub, hnda, hndt⟩
  by_cases h2 : getCell row cfg.nameIdx = ""
  · rw [stepEv_eq_skip ev (Or.inr h2)]; exact ⟨hsub, hnda, hndt⟩
  rw [stepEv_eq_valid ev h1 h2]
  by_cases hm : jsLower (getCell row cfg.statusIdx) = jsLower cfg.condition
  · refine ⟨?_, nodup_insertSet hnda _, by simp [hm]; exact nodup_insertSet hndt _⟩
    intro x hx
    simp only [hm, if_pos] at hx
    rcases mem_insertSet.mp hx with hx | rfl
    · exact subset_insertSet _ _ (hsub hx)
    · exact mem_insertSet.mpr (Or.inr rfl)
  · refine ⟨?_, nodup_insertSet hnda _, by simp [hm]; exact hndt⟩
    intro x hx
    simp only [hm, if_neg, if_false] at hx
    exact subset_insertSet _ _ (hsub hx)

theorem evFold_inv (cfg : Cfg) (rows : List (List String)) (ev : EventSets)
    (h : EInv ev) : EInv (rows.foldl (stepEv cfg) ev) := by
  induction rows generalizing ev with
  | nil => exact h
  | cons r rs ih =>
    rw [List.foldl_cons]
    exact ih _ (stepEv_inv cfg ev r h)

theorem evSets_inv (cfg : Cfg) (rows : List (List String)) : EInv (evSets cfg rows) :=
  evFold_inv cfg rows ⟨[], []⟩ ⟨by simp, List.nodup_nil, List.nodup_nil⟩

theorem evFold_mem_applicants (cfg : Cfg) (rows : List (List String))
    (ev : EventSets) (x : String) :
    x ∈ (rows.foldl (stepEv cfg) ev).applicants
      ↔ x ∈ ev.applicants ∨ (firstValidName cfg x rows).isSome = true := by
  induction rows generalizing ev with
  | nil => simp [firstValidName]
  | cons row rest ih =>
    rw [List.foldl_cons, ih]
    by_cases h1 : getCell row cfg.pkIdx = ""
    · rw [stepEv_eq_skip ev (Or.inl h1)]
      have : firstValidName cfg x (row :: rest) = firstValidName cfg x rest := by
        simp [firstValidName, h1]
      rw [this]
    by_cases h2 : getCell row cfg.nameIdx = ""
    · rw [stepEv_eq_skip ev (Or.inr h2)]
      have : firstValidName cfg x (row :: rest) = firstValidName cfg x rest := by
        simp [firstValidName, h2]
      rw [this]
    rw [stepEv_eq_valid ev h1 h2]
    by_cases hx : getCell row cfg.pkIdx = x
    · have h1x : ¬ x = "" := hx ▸ h1
      have : firstValidName cfg x (row :: rest) = some (getCell row cfg.nameIdx) := by
        simp [firstValidName, hx, h1x, h2]
      rw [this]
      simp [mem_insertSet, hx]
    · have : firstValidName cfg x (row :: rest) = firstValidName cfg x rest := by
        simp [firstValidName, hx]
      rw [this]
      have : x ∈ insertSet ev.applicants (getCell row cfg.pkIdx) ↔ x ∈ ev.applicants := by
        rw [mem_insertSet]
        constructor
        · rintro (hh | rfl)
          · exact hh
          · exact absurd rfl hx
        · exact Or.inl
      rw [this]

theorem evSets_mem_applicants (cfg : Cfg) (rows : List (List String)) (x : String) :
    x ∈ (evSets cfg rows).applicants ↔ (firstValidName cfg x rows).isSome = true := by
  unfold evSets
  rw [evFold_mem_applicants]
  simp

/-! Lemmas about the attendee fold inside foldEvent. -/

theorem mcount_bumpKey (m : List (String × String × Nat)) (k pk : String) :
    mcount (bumpKey m k) pk
      = mcount m pk + (if k = pk ∧ pk ∈ mkeys m then 1 else 0) := by
  unfold mcount
  rw [mfind_bumpKey]
  cases hm : mfind m pk with
  | none =>
    have : pk ∉ mkeys m := mfind_eq_none_iff.mp hm
    simp [this]
  | some e =>
    have : pk ∈ mkeys m := mfind_isSome_iff.mp (by simp [hm])
    by_cases hk : k = pk <;> simp [hk, this]

theorem mname_bumpKey (m : List (String × String × Nat)) (k pk : String) :
    mname (bumpKey m k) pk = mname m pk := by
  unfold mname
  rw [mfind_bumpKey]
  cases mfind m pk with
  | none => rfl
  | some e => by_cases hk : k = pk <;> simp [hk]

theorem attStep_fields (t : AggState) (pk : String) :
    (attStep t pk).grossTotal = t.grossTotal ∧
    (attStep t pk).attendTotal = t.attendTotal ∧
    (attStep t pk).processed = t.processed ∧
    (attStep t pk).skipped = t.skipped ∧
    (attStep t pk).ignoredNoKey = t.ignoredNoKey ∧
    (attStep t pk).ignoredNoName = t.ignoredNoName :=
  ⟨rfl, rfl, rfl, rfl, rfl, rfl⟩

theorem attFold_fields (att : List String) (t : AggState) :
    (att.foldl attStep t).grossTotal = t.grossTotal ∧
    (att.foldl attStep t).attendTotal = t.attendTotal ∧
    (att.foldl attStep t).processed = t.processed ∧
    (att.foldl attStep t).skipped = t.skipped ∧
    (att.foldl attStep t).ignoredNoKey = t.ignoredNoKey ∧
    (att.foldl attStep t).ignoredNoName = t.ignoredNoName := by
  induction att generalizing t with
  | nil => exact ⟨rfl, rfl, rfl, rfl, rfl, rfl⟩
  | cons a rest ih =>
    rw [List.foldl_cons]
    exact ih (attStep t a)

theorem attFold_mkeys (att : List String) (t : AggState) :
    mkeys (att.foldl attStep t).master = mkeys t.master := by
  induction att generalizing t with
  | nil => rfl
  | cons a rest ih =>
    rw [List.foldl_cons, ih]
    exact mkeys_bumpKey t.master a

theorem attFold_mname (att : List String) (t : AggState) (pk : String) :
    mname (att.foldl attStep t).master pk = mname t.master pk := by
  induction att generalizing t with
  | nil => rfl
  | cons a rest ih =>
    rw [List.foldl_cons, ih]
    exact mname_bumpKey t.master a pk

theorem attFold_mcount (att : List String) (t : AggState) (pk : String)
    (hnd : att.Nodup) (hsub : ∀ x ∈ att, x ∈ mkeys t.master) :
    mcount (att.foldl attStep t).master pk
      = mcount t.master pk + (if pk ∈ att then 1 else 0) := by
  induction att generalizing t with
  | nil => simp
  | cons a rest ih =>
    rw [List.foldl_cons]
    have hnd2 : rest.Nodup := (List.nodup_cons.mp hnd).2
    have hsub2 : ∀ x ∈ rest, x ∈ mkeys (attStep t a).master := by
      intro x hx
      show x ∈ mkeys (bumpKey t.master a)
      rw [mkeys_bumpKey]
      exact hsub x (List.mem_cons_of_mem _ hx)
    rw [ih (attStep t a) hnd2 hsub2]
    have hms : mcount (attStep t a).master pk
        = mcount t.master pk + (if a = pk ∧ pk ∈ mkeys t.master then 1 else 0) :=
      mcount_bumpKey t.master a pk
    rw [hms]
    by_cases hpa : pk = a
    · subst hpa
      have hmem : pk ∈ mkeys t.master := hsub pk (List.mem_cons_self _ _)
      have hnot : pk ∉ rest := (List.nodup_cons.mp hnd).1
      simp [hmem, hnot]
    · have hno : ¬ (a = pk ∧ pk ∈ mkeys t.master) := fun h => hpa h.1.symm
      simp only [hno, if_false, List.mem_cons]
      by_cases hr : pk ∈ rest <;> simp [hr, hpa]

theorem attFold_msum (att : List String) (t : AggState)
    (hknd : (mkeys t.master).Nodup) (hsub : ∀ x ∈ att, x ∈ mkeys t.master) :
    msum (att.foldl attStep t).master = msum t.master + att.length := by
  induction att generalizing t with
  | nil => simp
  | cons a rest ih =>
    rw [List.foldl_cons]
    have hknd2 : (mkeys (attStep t a).master).Nodup := by
      show (mkeys (bumpKey t.master a)).Nodup
      rw [mkeys_bumpKey]
      exact hknd
    have hsub2 : ∀ x ∈ rest, x ∈ mkeys (attStep t a).master := by
      intro x hx
      show x ∈ mkeys (bumpKey t.master a)
      rw [mkeys_bumpKey]
      exact hsub x (List.mem_cons_of_mem _ hx)
    rw [ih (attStep t a) hknd2 hsub2]
    have hmem : a ∈ mkeys t.master := hsub a (List.mem_cons_self _ _)
    have hcnt : (mkeys t.master).count a = 1 := by
      have hle := List.nodup_iff_count_le_one.mp hknd a
      have hpos := List.count_pos_iff.mpr hmem
      omega
    show msum (bumpKey t.master a) + rest.length = msum t.master + (a :: rest).length
    rw [msum_bumpKey, hcnt]
    simp
    omega

theorem attFold_uniq_mem (att : List String) (t : AggState) (x : String) :
    x ∈ (att.foldl attStep t).attendUniq ↔ x ∈ t.attendUniq ∨ x ∈ att := by
  induction att generalizing t with
  | nil => simp
  | cons a rest ih =>
    rw [List.foldl_cons, ih]
    show (x ∈ insertSet t.attendUniq a ∨ x ∈ rest) ↔ _
    rw [mem_insertSet]
    simp [List.mem_cons]
    tauto

theorem attFold_uniq_nodup (att : List String) (t : AggState)
    (h : t.attendUniq.Nodup) : (att.foldl attStep t).attendUniq.Nodup := by
  induction att generalizing t with
  | nil => exact h
  | cons a rest ih =>
    rw [List.foldl_cons]
    exact ih (attStep t a) (nodup_insertSet h a)

theorem attFold_uniq_len (att : List String) (t : AggState) :
    (att.foldl attStep t).attendUniq.length ≤ t.attendUniq.length + att.length := by
  induction att generalizing t with
  | nil => simp
  | cons a rest ih =>
    rw [List.foldl_cons]
    have h1 := ih (attStep t a)
    have h2 : (attStep t a).attendUniq.length ≤ t.attendUniq.length + 1 :=
      length_insertSet_le t.attendUniq a
    simp only [List.length_cons]
    omega

/-! Per-file delta lemmas for processFile. -/

theorem processFile_none {cfg : Cfg} {s : AggState} {f : SourceFile}
    (hf : f.parsed = none) :
    processFile cfg s f
      = { s with skipped := s.skipped ++ [(f.name, "parse_error")] } := by
  simp [processFile, hf]

theorem processFile_some {cfg : Cfg} {s : AggState} {f : SourceFile}
    {data : List (List String)} (hf : f.parsed = some data) :
    processFile cfg s f
      = foldEvent ((sourceRows cfg f).foldl (stepS cfg) s)
          (evSets cfg (sourceRows cfg f)) := by
  have hsr : sourceRows cfg f = fileRows cfg data := by
    simp [sourceRows, hf]
  simp only [processFile, hf, hsr]
  rw [rowFold_eq]
  rfl

theorem foldEvent_spec (t : AggState) (ev : EventSets)
    (hnd : ev.attendees.Nodup) (hknd : (mkeys t.master).Nodup)
    (hsub : ∀ x ∈ ev.attendees, x ∈ mkeys t.master) :
    (foldEvent t ev).grossTotal = t.grossTotal + ev.applicants.length ∧
    (foldEvent t ev).attendTotal = t.attendTotal + ev.attendees.length ∧
    (foldEvent t ev).processed = t.processed + 1 ∧
    (foldEvent t ev).skipped = t.skipped ∧
    mkeys (foldEvent t ev).master = mkeys t.master ∧
    (∀ pk, mname (foldEvent t ev).master pk = mname t.master pk) ∧
    (∀ pk, mcount (foldEvent t ev).master pk
        = mcount t.master pk + (if pk ∈ ev.attendees then 1 else 0)) ∧
    msum (foldEvent t ev).master = msum t.master + ev.attendees.length ∧
    (∀ x, x ∈ (foldEvent t ev).attendUniq ↔ x ∈ t.attendUniq ∨ x ∈ ev.attendees) ∧
    (t.attendUniq.Nodup → (foldEvent t ev).attendUniq.Nodup) ∧
    (foldEvent t ev).attendUniq.length ≤ t.attendUniq.length + ev.attendees.length := by
  have h1 : ∀ u : AggState, (foldEvent t ev).grossTotal
      = (ev.attendees.foldl attStep
          { t with grossTotal := t.grossTotal + ev.applicants.length,
                   attendTotal := t.attendTotal + ev.attendees.length }).grossTotal :=
    fun _ => rfl
  set t1 : AggState :=
    { t with grossTotal := t.grossTotal + ev.applicants.length,
             attendTotal := t.attendTotal + ev.attendees.length } with ht1
  have hsub1 : ∀ x ∈ ev.attendees, x ∈ mkeys t1.master := hsub
  have hknd1 : (mkeys t1.master).Nodup := hknd
  obtain ⟨hg, ha, hp, hs, hk, hn⟩ := attFold_fields ev.attendees t1
  refine ⟨?_, ?_, ?_, ?_, ?_, ?_, ?_, ?_, ?_, ?_, ?_⟩
  · show (ev.attendees.foldl attStep t1).grossTotal = _
    rw [hg]
  · show (ev.attendees.foldl attStep t1).attendTotal = _
    rw [ha]
  · show (ev.attendees.foldl attStep t1).processed + 1 = _
    rw [hp]
  · show (ev.attendees.foldl attStep t1).skipped = _
    rw [hs]
  · show mkeys (ev.attendees.foldl attStep t1).master = _
    rw [attFold_mkeys]
  · intro pk
    show mname (ev.attendees.foldl attStep t1).master pk = _
    rw [attFold_mname]
  · intro pk
    show mcount (ev.attendees.foldl attStep t1).master pk = _
    rw [attFold_mcount ev.attendees t1 pk hnd hsub1]
  · show msum (ev.attendees.foldl attStep t1).master = _
    rw [attFold_msum ev.attendees t1 hknd1 hsub1]
  · intro x
    show x ∈ (ev.attendees.foldl attStep t1).attendUniq ↔ _
    rw [attFold_uniq_mem]
  · intro hu
    show (ev.attendees.foldl attStep t1).attendUniq.Nodup
    exact attFold_uniq_nodup ev.attendees t1 hu
  · show (ev.attendees.foldl attStep t1).attendUniq.length ≤ _
    exact attFold_uniq_len ev.attendees t1

theorem processFile_spec (cfg : Cfg) (s : AggState) (f : SourceFile)
    {data : List (List String)} (hf : f.parsed = some data)
    (hknd : (mkeys s.master).Nodup) :
    (processFile cfg s f).grossTotal
        = s.grossTotal + (fileApplicants cfg f).length ∧
    (processFile cfg s f).attendTotal
        = s.attendTotal + (fileAttendees cfg f).length ∧
    (processFile cfg s f).processed = s.processed + 1 ∧
    (processFile cfg s f).skipped = s.skipped ∧
    (∀ pk, mcount (processFile cfg s f).master pk
        = mcount s.master pk + (if pk ∈ fileAttendees cfg f then 1 else 0)) ∧
    (∀ pk, mname (processFile cfg s f).master pk
        = (mname s.master pk <|> firstValidName cfg pk (sourceRows cfg f))) ∧
    (∀ x, x ∈ mkeys (processFile cfg s f).master
        ↔ x ∈ mkeys s.master ∨ x ∈ fileApplicants cfg f) ∧
    (∀ x, x ∈ (processFile cfg s f).attendUniq
        ↔ x ∈ s.attendUniq ∨ x ∈ fileAttendees cfg f) ∧
    msum (processFile cfg s f).master
        = msum s.master + (fileAttendees cfg f).length ∧
    (mkeys (processFile cfg s f).master).Nodup ∧
    (s.attendUniq.Nodup → (processFile cfg s f).attendUniq.Nodup) ∧
    (processFile cfg s f).attendUniq.length
        ≤ s.attendUniq.length + (fileAttendees cfg f).length := by
  rw [processFile_some hf]
  set rows := sourceRows cfg f with hrows
  set s0 := rows.foldl (stepS cfg) s with hs0
  have hknd0 : (mkeys s0.master).Nodup := foldl_stepS_nodup cfg rows s hknd
  obtain ⟨einv1, einv2, einv3⟩ := evSets_inv cfg rows
  have hsub : ∀ x ∈ (evSets cfg rows).attendees, x ∈ mkeys s0.master := by
    intro x hx
    have happ : x ∈ (evSets cfg rows).applicants := einv1 hx
    have hfvn := (evSets_mem_applicants cfg rows x).mp happ
    exact (foldl_stepS_mem_mkeys cfg rows s x).mpr (Or.inr hfvn)
  obtain ⟨fg, fa, fp, fs, fk, fn, fc, fm, fu, fun1, ful⟩ :=
    foldEvent_spec s0 (evSets cfg rows) einv3 hknd0 hsub
  obtain ⟨rg, ra, ru, rp, rs⟩ := foldl_stepS_fields cfg rows s
  have hA : fileApplicants cfg f = (evSets cfg rows).applicants := rfl
  have hT : fileAttendees cfg f = (evSets cfg rows).attendees := rfl
  refine ⟨?_, ?_, ?_, ?_, ?_, ?_, ?_, ?_, ?_, ?_, ?_, ?_⟩
  · rw [fg, rg, hA]
  · rw [fa, ra, hT]
  · rw [fp, rp]
  · rw [fs, rs]
  · intro pk
    rw [fc pk, foldl_stepS_mcount, hT]
  · intro pk
    rw [fn pk, foldl_stepS_mname]
  · intro x
    have := fk ▸ (foldl_stepS_mem_mkeys cfg rows s x)
    rw [hA, evSets_mem_applicants]
    rw [fk]
    exact foldl_stepS_mem_mkeys cfg rows s x
  · intro x
    rw [fu x, ru, hT]
  · rw [fm, foldl_stepS_msum, hT]
  · rw [fk]
    exact hknd0
  · intro hu
    exact fun1 (ru ▸ hu)
  · calc (foldEvent s0 (evSets cfg rows)).attendUniq.length
        ≤ s0.attendUniq.length + (evSets cfg rows).attendees.length := ful
    _ = s.attendUniq.length + (fileAttendees cfg f).length := by rw [ru, hT]

/-! Run-level closed forms, by induction over the processed file list. -/

theorem sourceRows_of_none {cfg : Cfg} {f : SourceFile} (hf : f.parsed = none) :
    sourceRows cfg f = [] := by
  simp [sourceRows, fileRows, hf]

theorem fileApplicants_of_none {cfg : Cfg} {f : SourceFile} (hf : f.parsed = none) :
    fileApplicants cfg f = [] := by
  simp [fileApplicants, sourceRows_of_none hf, evSets]

theorem fileAttendees_of_none {cfg : Cfg} {f : SourceFile} (hf : f.parsed = none) :
    fileAttendees cfg f = [] := by
  simp [fileAttendees, sourceRows_of_none hf, evSets]

theorem processFile_runOk (cfg : Cfg) (s : AggState) (f : SourceFile)
    (h : RunOk s) : RunOk (processFile cfg s f) := by
  cases hf : f.parsed with
  | none =>
    rw [processFile_none hf]
    exact h
  | some data =>
    obtain ⟨_, _, _, _, _, _, _, _, _, hknd, hund, _⟩ :=
      processFile_spec cfg s f hf h.1
    exact ⟨hknd, hund h.2⟩

theorem runFold_runOk (cfg : Cfg) (fs : List SourceFile) (s : AggState)
    (h : RunOk s) : RunOk (fs.foldl (processFile cfg) s) := by
  induction fs generalizing s with
  | nil => exact h
  | cons f rest ih =>
    rw [List.foldl_cons]
    exact ih _ (processFile_runOk cfg s f h)

theorem runFold_gross (cfg : Cfg) (fs : List SourceFile) (s : AggState)
    (h : RunOk s) :
    (fs.foldl (processFile cfg) s).grossTotal
      = s.grossTotal
        + ((fs.filter (fun f => f.parsed.isSome)).map
            (fun f => (fileApplicants cfg f).length)).sum := by
  induction fs generalizing s with
  | nil => simp
  | cons f rest ih =>
    rw [List.foldl_cons, ih _ (processFile_runOk cfg s f h)]
    cases hf : f.parsed with
    | none =>
      rw [processFile_none hf]
      simp [List.filter_cons, hf]
    | some data =>
      obtain ⟨hg, _, _, _, _, _, _, _, _, _, _, _⟩ := processFile_spec cfg s f hf h.1
      rw [hg]
      simp [List.filter_cons, hf]
      omega

theorem runFold_attend (cfg : Cfg) (fs : List SourceFile) (s : AggState)
    (h : RunOk s) :
    (fs.foldl (processFile cfg) s).attendTotal
      = s.attendTotal
        + ((fs.filter (fun f => f.parsed.isSome)).map
            (fun f => (fileAttendees cfg f).length)).sum := by
  induction fs generalizing s with
  | nil => simp
  | cons f rest ih =>
    rw [List.foldl_cons, ih _ (processFile_runOk cfg s f h)]
    cases hf : f.parsed with
    | none =>
      rw [processFile_none hf]
      simp [List.filter_cons, hf]
    | some data =>
      obtain ⟨_, ha, _, _, _, _, _, _, _, _, _, _⟩ := processFile_spec cfg s f hf h.1
      rw [ha]
      simp [List.filter_cons, hf]
      omega

theorem runFold_processed (cfg : Cfg) (fs : List SourceFile) (s : AggState)
    (h : RunOk s) :
    (fs.foldl (processFile cfg) s).processed
      = s.processed + (fs.filter (fun f => f.parsed.isSome)).length := by
  induction fs generalizing s with
  | nil => simp
  | cons f rest ih =>
    rw [List.foldl_cons, ih _ (processFile_runOk cfg s f h)]
    cases hf : f.parsed with
    | none =>
      rw [processFile_none hf]
      simp [List.filter_cons, hf]
    | some data =>
      obtain ⟨_, _, hp, _, _, _, _, _, _, _, _, _⟩ := processFile_spec cfg s f hf h.1
      rw [hp]
      simp [List.filter_cons, hf]
      omega

theorem runFold_skipped (cfg : Cfg) (fs : List SourceFile) (s : AggState)
    (h : RunOk s) :
    (fs.foldl (processFile cfg) s).skipped
      = s.skipped
        ++ (fs.filter (fun f => !f.parsed.isSome)).map
            (fun f => (f.name, "parse_error")) := by
  induction fs generalizing s with
  | nil => simp
  | cons f rest ih =>
    rw [List.foldl_cons, ih _ (processFile_runOk cfg s f h)]
    cases hf : f.parsed with
    | none =>
      rw [processFile_none hf]
      simp [List.filter_cons, hf]
    | some data =>
      obtain ⟨_, _, _, hs, _, _, _, _, _, _, _, _⟩ := processFile_spec cfg s f hf h.1
      rw [hs]
      simp [List.filter_cons, hf]

theorem runFold_mcount (cfg : Cfg) (fs : List SourceFile) (s : AggState)
    (h : RunOk s) (pk : String) :
    mcount ((fs.foldl (processFile cfg) s)).master pk
      = mcount s.master pk
        + (fs.filter (fun f => f.parsed.isSome
            && decide (pk ∈ fileAttendees cfg f))).length := by
  induction fs generalizing s with
  | nil => simp
  | cons f rest ih =>
    rw [List.foldl_cons, ih _ (processFile_runOk cfg s f h)]
    cases hf : f.parsed with
    | none =>
      rw [processFile_none hf]
      simp [List.filter_cons, hf]
    | some data =>
      obtain ⟨_, _, _, _, hc, _, _, _, _, _, _, _⟩ := processFile_spec cfg s f hf h.1
      rw [hc pk]
      by_cases hm : pk ∈ fileAttendees cfg f <;>
        simp [List.filter_cons, hf, hm] <;> omega

theorem foldl_orElse_fvn (cfg : Cfg) (pk : String) (fs : List SourceFile)
    (a : Option String) :
    fs.foldl (fun acc f => acc <|> firstValidName cfg pk (sourceRows cfg f)) a
      = (a <|> firstValidNameRun cfg pk fs) := by
  induction fs generalizing a with
  | nil => cases a <;> simp [firstValidNameRun]
  | cons f rest ih =>
    show rest.foldl _ (a <|> firstValidName cfg pk (sourceRows cfg f)) = _
    rw [ih]
    have hrhs : firstValidNameRun cfg pk (f :: rest)
        = ((none <|> firstValidName cfg pk (sourceRows cfg f))
            <|> firstValidNameRun cfg pk rest) := by
      show (f :: rest).foldl _ none = _
      rw [List.foldl_cons, ih]
    rw [hrhs]
    cases a <;> cases firstValidName cfg pk (sourceRows cfg f) <;> simp

theorem runFold_mname (cfg : Cfg) (fs : List SourceFile) (s : AggState)
    (h : RunOk s) (pk : String) :
    mname ((fs.foldl (processFile cfg) s)).master pk
      = (mname s.master pk <|> firstValidNameRun cfg pk fs) := by
  induction fs generalizing s with
  | nil => cases hh : mname s.master pk <;> simp [firstValidNameRun, hh]
  | cons f rest ih =>
    rw [List.foldl_cons, ih _ (processFile_runOk cfg s f h)]
    have hrhs : firstValidNameRun cfg pk (f :: rest)
        = ((none <|> firstValidName cfg pk (sourceRows cfg f))
            <|> firstValidNameRun cfg pk rest) := by
      show (f :: rest).foldl _ none = _
      rw [List.foldl_cons, foldl_orElse_fvn]
    rw [hrhs]
    cases hf : f.parsed with
    | none =>
      rw [processFile_none hf]
      rw [sourceRows_of_none hf]
      cases mname s.master pk <;> simp [firstValidName]
    | some data =>
      obtain ⟨_, _, _, _, _, hn, _, _, _, _, _, _⟩ := processFile_spec cfg s f hf h.1
      rw [hn pk]
      cases mname s.master pk <;>
        cases firstValidName cfg pk (sourceRows cfg f) <;> simp

theorem runFold_mem_mkeys (cfg : Cfg) (fs : List SourceFile) (s : AggState)
    (h : RunOk s) (x : String) :
    x ∈ mkeys ((fs.foldl (processFile cfg) s)).master
      ↔ x ∈ mkeys s.master
        ∨ ∃ g ∈ fs, g.parsed.isSome = true ∧ x ∈ fileApplicants cfg g := by
  induction fs generalizing s with
  | nil => simp
  | cons f rest ih =>
    rw [List.foldl_cons, ih _ (processFile_runOk cfg s f h)]
    cases hf : f.parsed with
    | none =>
      rw [processFile_none hf]
      constructor
      · rintro (hx | hx)
        · exact Or.inl hx
        · obtain ⟨g, hg, hgs, hga⟩ := hx
          exact Or.inr ⟨g, List.mem_cons_of_mem _ hg, hgs, hga⟩
      · rintro (hx | ⟨g, hg, hgs, hga⟩)
        · exact Or.inl hx
        · rcases List.mem_cons.mp hg with rfl | hg2
          · rw [hf] at hgs
            simp at hgs
          · exact Or.inr ⟨g, hg2, hgs, hga⟩
    | some data =>
      obtain ⟨_, _, _, _, _, _, hk, _, _, _, _, _⟩ := processFile_spec cfg s f hf h.1
      rw [hk x]
      constructor
      · rintro ((hx | hx) | hx)
        · exact Or.inl hx
        · exact Or.inr ⟨f, List.mem_cons_self _ _, by simp [hf], hx⟩
        · obtain ⟨g, hg, hgs, hga⟩ := hx
          exact Or.inr ⟨g, List.mem_cons_of_mem _ hg, hgs, hga⟩
      · rintro (hx | ⟨g, hg, hgs, hga⟩)
        · exact Or.inl (Or.inl hx)
        · rcases List.mem_cons.mp hg with rfl | hg2
          · exact Or.inl (Or.inr hga)
          · exact Or.inr ⟨g, hg2, hgs, hga⟩

theorem runFold_mem_uniq (cfg : Cfg) (fs : List SourceFile) (s : AggState)
    (h : RunOk s) (x : String) :
    x ∈ (fs.foldl (processFile cfg) s).attendUniq
      ↔ x ∈ s.attendUniq
        ∨ ∃ g ∈ fs, g.parsed.isSome = true ∧ x ∈ fileAttendees cfg g := by
  induction fs generalizing s with
  | nil => simp
  | cons f rest ih =>
    rw [List.foldl_cons, ih _ (processFile_runOk cfg s f h)]
    cases hf : f.parsed with
    | none =>
      rw [processFile_none hf]
      constructor
      · rintro (hx | hx)
        · exact Or.inl hx
        · obtain ⟨g, hg, hgs, hga⟩ := hx
          exact Or.inr ⟨g, List.mem_cons_of_mem _ hg, hgs, hga⟩
      · rintro (hx | ⟨g, hg, hgs, hga⟩)
        · exact Or.inl hx
        · rcases List.mem_cons.mp hg with rfl | hg2
          · rw [hf] at hgs
            simp at hgs
          · exact Or.inr ⟨g, hg2, hgs, hga⟩
    | some data =>
      obtain ⟨_, _, _, _, _, _, _, hu, _, _, _, _⟩ := processFile_spec cfg s f hf h.1
      rw [hu x]
      constructor
      · rintro ((hx | hx) | hx)
        · exact Or.inl hx
        · exact Or.inr ⟨f, List.mem_cons_self _ _, by simp [hf], hx⟩
        · obtain ⟨g, hg, hgs, hga⟩ := hx
          exact Or.inr ⟨g, List.mem_cons_of_mem _ hg, hgs, hga⟩
      · rintro (hx | ⟨g, hg, hgs, hga⟩)
        · exact Or.inl (Or.inl hx)
        · rcases List.mem_cons.mp hg with rfl | hg2
          · exact Or.inl (Or.inr hga)
          · exact Or.inr ⟨g, hg2, hgs, hga⟩

theorem runFold_msum (cfg : Cfg) (fs : List SourceFile) (s : AggState)
    (h : RunOk s) :
    msum ((fs.foldl (processFile cfg) s)).master
      = msum s.master
        + ((fs.filter (fun f => f.parsed.isSome)).map
            (fun f => (fileAttendees cfg f).length)).sum := by
  induction fs generalizing s with
  | nil => simp
  | cons f rest ih =>
    rw [List.foldl_cons, ih _ (processFile_runOk cfg s f h)]
    cases hf : f.parsed with
    | none =>
      rw [processFile_none hf]
      simp [List.filter_cons, hf]
    | some data =>
      obtain ⟨_, _, _, _, _, _, _, _, hm, _, _, _⟩ := processFile_spec cfg s f hf h.1
      rw [hm]
      simp [List.filter_cons, hf]
      omega

theorem runFold_uniq_len (cfg : Cfg) (fs : List SourceFile) (s : AggState)
    (h : RunOk s) :
    (fs.foldl (processFile cfg) s).attendUniq.length
      ≤ s.attendUniq.length
        + ((fs.filter (fun f => f.parsed.isSome)).map
            (fun f => (fileAttendees cfg f).length)).sum := by
  induction fs generalizing s with
  | nil => simp
  | cons f rest ih =>
    rw [List.foldl_cons]
    have hstep := ih _ (processFile_runOk cfg s f h)
    cases hf : f.parsed with
    | none =>
      have hu : (processFile cfg s f).attendUniq = s.attendUniq := by
        rw [processFile_none hf]
      rw [hu] at hstep
      simpa [List.filter_cons, hf] using hstep
    | some data =>
      obtain ⟨_, _, _, _, _, _, _, _, _, _, _, hl⟩ := processFile_spec cfg s f hf h.1
      have : ((List.filter (fun f => f.parsed.isSome) (f :: rest)).map
          (fun f => (fileAttendees cfg f).length)).sum
          = (fileAttendees cfg f).length
            + ((rest.filter (fun f => f.parsed.isSome)).map
                (fun f => (fileAttendees cfg f).length)).sum := by
        simp [List.filter_cons, hf]
      rw [this]
      omega

theorem fileAttendees_length_le (cfg : Cfg) (f : SourceFile) :
    (fileAttendees cfg f).length ≤ (fileApplicants cfg f).length := by
  obtain ⟨hsub, hnda, hndt⟩ := evSets_inv cfg (sourceRows cfg f)
  exact (hndt.subperm hsub).length_le

/-! Aggregate-level closed forms. -/

theorem aggregate_fields (cfg : Cfg) (files : List SourceFile) :
    (aggregate cfg files).processedCount = (runState cfg files).processed ∧
    (aggregate cfg files).skipped = (runState cfg files).skipped ∧
    (aggregate cfg files).masterRows
        = List.insertionSort rowRel (runState cfg files).master ∧
    (aggregate cfg files).summary.grossTotal = (runState cfg files).grossTotal ∧
    (aggregate cfg files).summary.attendTotal = (runState cfg files).attendTotal ∧
    (aggregate cfg files).summary.attendUnique
        = (runState cfg files).attendUniq.length ∧
    (aggregate cfg files).summary.ignoredNoKey = (runState cfg files).ignoredNoKey ∧
    (aggregate cfg files).summary.ignoredNoName
        = (runState cfg files).ignoredNoName ∧
    (aggregate cfg files).summary.rate
        = (if 0 < (runState cfg files).grossTotal
           then Rate.fixed6 (round6 (((runState cfg files).attendTotal : ℚ)
                  / ((runState cfg files).grossTotal : ℚ)))
           else Rate.intZero) :=
  ⟨rfl, rfl, rfl, rfl, rfl, rfl, rfl, rfl, rfl⟩

theorem initState_runOk (sk : List (String × String)) : RunOk (initState sk) :=
  ⟨by simp [initState, mkeys], by simp [initState]⟩

theorem runState_runOk (cfg : Cfg) (files : List SourceFile) :
    RunOk (runState cfg files) :=
  runFold_runOk cfg _ _ (initState_runOk _)

theorem runState_gross (cfg : Cfg) (files : List SourceFile) :
    (runState cfg files).grossTotal
      = ((processedFiles files).map (fun f => (fileApplicants cfg f).length)).sum := by
  unfold runState
  rw [runFold_gross cfg _ _ (initState_runOk _)]
  simp [initState, processedFiles]

theorem runState_attend (cfg : Cfg) (files : List SourceFile) :
    (runState cfg files).attendTotal
      = ((processedFiles files).map (fun f => (fileAttendees cfg f).length)).sum := by
  unfold runState
  rw [runFold_attend cfg _ _ (initState_runOk _)]
  simp [initState, processedFiles]

theorem runState_processed (cfg : Cfg) (files : List SourceFile) :
    (runState cfg files).processed = (processedFiles files).length := by
  unfold runState
  rw [runFold_processed cfg _ _ (initState_runOk _)]
  simp [initState, processedFiles]

theorem runState_skipped (cfg : Cfg) (files : List SourceFile) :
    (runState cfg files).skipped
      = (dupFilter files).2
        ++ ((dupFilter files).1.filter (fun f => !f.parsed.isSome)).map
            (fun f => (f.name, "parse_error")) := by
  unfold runState
  rw [runFold_skipped cfg _ _ (initState_runOk _)]
  simp [initState]

theorem runState_msum (cfg : Cfg) (files : List SourceFile) :
    msum (runState cfg files).master
      = ((processedFiles files).map (fun f => (fileAttendees cfg f).length)).sum := by
  unfold runState
  rw [runFold_msum cfg _ _ (initState_runOk _)]
  simp [initState, msum, processedFiles]

theorem runState_mcount (cfg : Cfg) (files : List SourceFile) (pk : String) :
    mcount (runState cfg files).master pk
      = ((processedFiles files).filter
          (fun f => decide (pk ∈ fileAttendees cfg f))).length := by
  unfold runState
  rw [runFold_mcount cfg _ _ (initState_runOk _)]
  have h0 : mcount (initState (dupFilter files).2).master pk = 0 := rfl
  rw [h0]
  rw [Nat.zero_add]
  unfold processedFiles
  rw [List.filter_filter]
  congr 1
  apply List.filter_congr
  intro x _
  exact Bool.and_comm _ _

theorem runState_mname (cfg : Cfg) (files : List SourceFile) (pk : String) :
    mname (runState cfg files).master pk
      = firstValidNameRun cfg pk (dupFilter files).1 := by
  unfold runState
  rw [runFold_mname cfg _ _ (initState_runOk _)]
  have h0 : mname (initState (dupFilter files).2).master pk = none := rfl
  rw [h0]
  cases firstValidNameRun cfg pk (dupFilter files).1 <;> simp

theorem exists_processed_iff (files : List SourceFile) (P : SourceFile → Prop) :
    (∃ g ∈ (dupFilter files).1, g.parsed.isSome = true ∧ P g)
      ↔ ∃ g ∈ processedFiles files, P g := by
  unfold processedFiles
  constructor
  · rintro ⟨g, hg, hs, hp⟩
    exact ⟨g, List.mem_filter.mpr ⟨hg, by simp [hs]⟩, hp⟩
  · rintro ⟨g, hg, hp⟩
    obtain ⟨hg1, hg2⟩ := List.mem_filter.mp hg
    exact ⟨g, hg1, by simpa using hg2, hp⟩

theorem runState_mem_mkeys (cfg : Cfg) (files : List SourceFile) (x : String) :
    x ∈ mkeys (runState cfg files).master
      ↔ ∃ g ∈ processedFiles files, x ∈ fileApplicants cfg g := by
  unfold runState
  rw [runFold_mem_mkeys cfg _ _ (initState_runOk _)]
  rw [← exists_processed_iff]
  have h0 : mkeys (initState (dupFilter files).2).master = [] := rfl
  simp [h0]

theorem runState_mem_uniq (cfg : Cfg) (files : List SourceFile) (x : String) :
    x ∈ (runState cfg files).attendUniq
      ↔ ∃ g ∈ processedFiles files, x ∈ fileAttendees cfg g := by
  unfold runState
  rw [runFold_mem_uniq cfg _ _ (initState_runOk _)]
  rw [← exists_processed_iff]
  have h0 : (initState (dupFilter files).2).attendUniq = [] := rfl
  simp [h0]

theorem runState_uniq_len (cfg : Cfg) (files : List SourceFile) :
    (runState cfg files).attendUniq.length
      ≤ ((processedFiles files).map (fun f => (fileAttendees cfg f).length)).sum := by
  unfold runState
  have h := runFold_uniq_len cfg (dupFilter files).1 _ (initState_runOk (dupFilter files).2)
  have h0 : (initState (dupFilter files).2).attendUniq = [] := rfl
  rw [h0] at h
  simpa [processedFiles] using h

theorem masterRows_perm (cfg : Cfg) (files : List SourceFile) :
    (aggregate cfg files).masterRows.Perm (runState cfg files).master := by
  rw [(aggregate_fields cfg files).2.2.1]
  exact List.perm_insertionSort rowRel _

theorem mem_masterRows_iff (cfg : Cfg) (files : List SourceFile)
    (e : String × String × Nat) :
    e ∈ (aggregate cfg files).masterRows ↔ e ∈ (runState cfg files).master :=
  (masterRows_perm cfg files).mem_iff

theorem masterRows_count (cfg : Cfg) (files : List SourceFile)
    {pk nm : String} {c : Nat}
    (h : (pk, nm, c) ∈ (aggregate cfg files).masterRows) :
    mfind (runState cfg files).master pk = some (nm, c) :=
  mfind_eq_some_of_mem (runState_runOk cfg files).1
    ((mem_masterRows_iff cfg files _).mp h)

theorem masterRows_sum (cfg : Cfg) (files : List SourceFile) :
    ((aggregate cfg files).masterRows.map (fun e => e.2.2)).sum
      = msum (runState cfg files).master :=
  ((masterRows_perm cfg files).map (fun e => e.2.2)).sum_eq

/-! Duplicate-filter characterizations and permutation stability. -/

theorem mem_dupNames {names : List String} {n : String} :
    n ∈ dupNames names ↔ 1 < names.count n := by
  unfold dupNames
  rw [List.mem_filter]
  constructor
  · rintro ⟨_, h⟩
    simpa using h
  · intro h
    refine ⟨mem_dedupFirst.mpr ?_, by simpa using h⟩
    exact List.count_pos_iff.mp (by omega)

theorem nodup_dupNames (names : List String) : (dupNames names).Nodup :=
  (nodup_dedupFirst names).filter _

theorem dupFilter_fst (files : List SourceFile) :
    (dupFilter files).1
      = files.filter
          (fun f => decide ((files.map (fun g => g.name)).count f.name ≤ 1)) := by
  unfold dupFilter
  apply List.filter_congr
  intro f _
  rw [decide_eq_decide]
  constructor
  · intro hn
    have := mem_dupNames.not.mp hn
    omega
  · intro hn
    intro hmem
    have := mem_dupNames.mp hmem
    omega

theorem dupFilter_snd_names (files : List SourceFile) :
    (dupFilter files).2.map (fun e => e.1)
      = dupNames (files.map (fun f => f.name)) := by
  unfold dupFilter
  simp only [List.map_map]
  have : ((fun e : String × String => e.1) ∘ fun n => (n, "duplicate_filename"))
      = fun n : String => n := rfl
  rw [this]
  exact List.map_id _

theorem dupFilter_snd_reason (files : List SourceFile) :
    ∀ e ∈ (dupFilter files).2, e.2 = "duplicate_filename" := by
  unfold dupFilter
  intro e he
  simp only [List.mem_map] at he
  obtain ⟨n, _, rfl⟩ := he
  rfl

theorem mfind_perm {m m' : List (String × String × Nat)} (hperm : m.Perm m')
    (hnd : (mkeys m).Nodup) (pk : String) : mfind m pk = mfind m' pk := by
  have hkperm : (mkeys m).Perm (mkeys m') := hperm.map _
  have hnd' : (mkeys m').Nodup := hkperm.nodup_iff.mp hnd
  cases hm : mfind m pk with
  | none =>
    have h1 : pk ∉ mkeys m := mfind_eq_none_iff.mp hm
    have h2 : pk ∉ mkeys m' := fun hx => h1 (hkperm.mem_iff.mpr hx)
    exact (mfind_eq_none_iff.mpr h2).symm
  | some e =>
    have hmem := mem_of_mfind_eq_some hm
    have hmem' : (pk, e.1, e.2) ∈ m' := hperm.mem_iff.mp hmem
    rw [mfind_eq_some_of_mem hnd' hmem']

theorem count_name_perm {files files' : List SourceFile}
    (h : files.Perm files') (n : String) :
    (files.map (fun f => f.name)).count n = (files'.map (fun f => f.name)).count n :=
  (h.map _).count_eq n

theorem dupFilter_fst_perm {files files' : List SourceFile}
    (h : files.Perm files') : (dupFilter files).1.Perm (dupFilter files').1 := by
  rw [dupFilter_fst, dupFilter_fst]
  have heq : files'.filter
        (fun f => decide ((files'.map (fun g => g.name)).count f.name ≤ 1))
      = files'.filter
        (fun f => decide ((files.map (fun g => g.name)).count f.name ≤ 1)) := by
    apply List.filter_congr
    intro f _
    rw [decide_eq_decide, count_name_perm h]
  rw [heq]
  exact h.filter _

theorem processedFiles_perm {files files' : List SourceFile}
    (h : files.Perm files') :
    (processedFiles files).Perm (processedFiles files') :=
  (dupFilter_fst_perm h).filter _

theorem map_name_filter (l : List SourceFile) (q : String → Bool) :
    (l.filter (fun f => q f.name)).map (fun f => f.name)
      = (l.map (fun f => f.name)).filter q := by
  induction l with
  | nil => rfl
  | cons f rest ih =>
    by_cases hq : q f.name <;> simp [List.filter_cons, hq, ih]

theorem mfind_map_count (m : List (String × String × Nat)) (pk : String) :
    (mfind m pk).map (fun e => e.2)
      = if pk ∈ mkeys m then some (mcount m pk) else none := by
  cases hm : mfind m pk with
  | none =>
    rw [if_neg (mfind_eq_none_iff.mp hm)]
    rfl
  | some e =>
    have hmem : pk ∈ mkeys m := mfind_isSome_iff.mp (by simp [hm])
    rw [if_pos hmem]
    simp [mcount, hm]

/-! The claims. -/

/-- C1: for every data row after the header skip, a primary-key cell that is
missing, out of range or trims to empty bumps the run-wide ignoredNoKey
counter and leaves every set untouched; otherwise an absent name cell bumps
ignoredNoName likewise; otherwise the key joins the event applicant set and
joins the attendee set exactly when the trimmed status cell equals the trimmed
condition string case-insensitively. -/
theorem C1_row_validation (cfg : Cfg) (s : AggState) (ev : EventSets)
    (row : List String) (hcond : jsTrim cfg.condition = cfg.condition) :
    (jsTrim (row.getD cfg.pkIdx "") = "" →
      stepRow cfg (s, ev) row
        = ({ s with ignoredNoKey := s.ignoredNoKey + 1 }, ev)) ∧
    (¬ jsTrim (row.getD cfg.pkIdx "") = "" → jsTrim (row.getD cfg.nameIdx "") = "" →
      stepRow cfg (s, ev) row
        = ({ s with ignoredNoName := s.ignoredNoName + 1 }, ev)) ∧
    (¬ jsTrim (row.getD cfg.pkIdx "") = "" → ¬ jsTrim (row.getD cfg.nameIdx "") = "" →
      (stepRow cfg (s, ev) row).2.applicants
          = insertSet ev.applicants (jsTrim (row.getD cfg.pkIdx "")) ∧
      (stepRow cfg (s, ev) row).2.attendees
          = (if jsLower (jsTrim (row.getD cfg.statusIdx ""))
                = jsLower (jsTrim cfg.condition)
             then insertSet ev.attendees (jsTrim (row.getD cfg.pkIdx ""))
             else ev.attendees)) := by
  refine ⟨?_, ?_, ?_⟩
  · intro h1
    rw [stepRow_eq]
    rw [stepS_eq_noKey s h1, stepEv_eq_skip ev (Or.inl h1)]
  · intro h1 h2
    rw [stepRow_eq]
    rw [stepS_eq_noName s h1 h2, stepEv_eq_skip ev (Or.inr h2)]
  · intro h1 h2
    rw [stepRow_eq]
    rw [stepEv_eq_valid ev h1 h2]
    rw [hcond]
    exact ⟨rfl, rfl⟩

/-- Witness for C1 at a concrete row: a key, a name and a status that matches
after trimming and lowercasing, producing a one-element attendee set. -/
theorem C1_row_validation_witness :
    (stepRow cfgW (initState [], ⟨[], []⟩) ["K1", "Ann", " APPROVED "]).2.attendees
      = ["K1"] := by
  have h := (C1_row_validation cfgW (initState []) ⟨[], []⟩
    ["K1", "Ann", " APPROVED "] (by decide)).2.2 (by decide) (by decide)
  rw [h.2]
  decide

/-- C2: the count stored for a key equals the number of successfully processed
files whose unique attendee set contains the key, and the counts over the
whole ledger sum to attendTotal. -/
theorem C2_attendance_count (cfg : Cfg) (files : List SourceFile) :
    (∀ pk nm c, (pk, nm, c) ∈ (aggregate cfg files).masterRows →
      c = ((processedFiles files).filter
            (fun f => decide (pk ∈ fileAttendees cfg f))).length) ∧
    ((aggregate cfg files).masterRows.map (fun e => e.2.2)).sum
      = (aggregate cfg files).summary.attendTotal := by
  constructor
  · intro pk nm c hmem
    have hf := masterRows_count cfg files hmem
    have hc : mcount (runState cfg files).master pk = c := by simp [mcount, hf]
    rw [← hc, runState_mcount]
  · rw [masterRows_sum, runState_msum,
      (aggregate_fields cfg files).2.2.2.2.1, runState_attend]

/-- Witness for C2: K1 attends in both concrete files, so its stored count is
the length of the two-file filter. -/
theorem C2_attendance_count_witness :
    (2 : Nat) = ((processedFiles [fW, fW2]).filter
        (fun f => decide ("K1" ∈ fileAttendees cfgW f))).length :=
  (C2_attendance_count cfgW [fW, fW2]).1 "K1" "Alice" 2 (by decide)

/-- C3: the duplicate filter keeps exactly the files whose name occurs at most
once, in their original order, reports each distinct duplicated name exactly
once with reason duplicate_filename, and is computed from the name list
alone. -/
theorem C3_duplicate_filter (files : List SourceFile) :
    (dupFilter files).1
        = files.filter
            (fun f => decide ((files.map (fun g => g.name)).count f.name ≤ 1)) ∧
    (dupFilter files).1.Sublist files ∧
    (∀ e ∈ (dupFilter files).2, e.2 = "duplicate_filename") ∧
    ((dupFilter files).2.map (fun e => e.1)).Nodup ∧
    (∀ n, n ∈ (dupFilter files).2.map (fun e => e.1)
        ↔ 1 < (files.map (fun g => g.name)).count n) ∧
    (∀ files2 : List SourceFile,
        files2.map (fun g => g.name) = files.map (fun g => g.name) →
          (dupFilter files2).2 = (dupFilter files).2 ∧
          (dupFilter files2).1.map (fun g => g.name)
            = (dupFilter files).1.map (fun g => g.name)) := by
  refine ⟨dupFilter_fst files, ?_, dupFilter_snd_reason files, ?_, ?_, ?_⟩
  · rw [dupFilter_fst]
    exact List.filter_sublist files
  · rw [dupFilter_snd_names]
    exact nodup_dupNames _
  · intro n
    rw [dupFilter_snd_names]
    exact mem_dupNames
  · intro files2 hn
    constructor
    · show (dupNames (files2.map (fun f => f.name))).map _
        = (dupNames (files.map (fun f => f.name))).map _
      rw [hn]
    · rw [dupFilter_fst, dupFilter_fst]
      rw [map_name_filter files2
        (fun n => decide ((files2.map (fun g => g.name)).count n ≤ 1))]
      rw [map_name_filter files
        (fun n => decide ((files.map (fun g => g.name)).count n ≤ 1))]
      rw [hn]

/-- Witness for C3: replacing the content of a duplicated file leaves the
duplicate report unchanged, since only names are consulted. -/
theorem C3_duplicate_filter_witness :
    (dupFilter [{ name := "a.csv", parsed := none }, fW]).2
      = (dupFilter [fW, fW]).2 :=
  ((C3_duplicate_filter [fW, fW]).2.2.2.2.2
    [{ name := "a.csv", parsed := none }, fW] (by decide)).1

/-- C5: the name stored for a key is the name of the first valid row of the
run carrying that key, and once a name is stored no later file changes it. -/
theorem C5_name_immutable (cfg : Cfg) (files : List SourceFile) :
    (∀ pk nm c, (pk, nm, c) ∈ (aggregate cfg files).masterRows →
      firstValidNameRun cfg pk (dupFilter files).1 = some nm) ∧
    (∀ (s : AggState) (fs : List SourceFile) (pk nm : String), RunOk s →
      mname s.master pk = some nm →
      mname ((fs.foldl (processFile cfg) s)).master pk = some nm) := by
  constructor
  · intro pk nm c hmem
    have hf := masterRows_count cfg files hmem
    have h1 : mname (runState cfg files).master pk = some nm := by
      simp [mname, hf]
    rw [← runState_mname cfg files pk]
    exact h1
  · intro s fs pk nm hok hnm
    rw [runFold_mname cfg fs s hok pk, hnm]
    cases firstValidNameRun cfg pk fs <;> simp

/-- Witness for C5: the first spelling Alice wins over the later Alicia. -/
theorem C5_name_immutable_witness :
    firstValidNameRun cfgW "K1" (dupFilter [fW, fW2]).1 = some "Alice" :=
  (C5_name_immutable cfgW [fW, fW2]).1 "K1" "Alice" 2 (by decide)

/-- C6: the rate is the exact literal zero when grossTotal is zero, and
otherwise the quotient attendTotal over grossTotal rounded to 6 decimal
places, which lies within half a millionth of the exact quotient. -/
theorem C6_rate_definition (cfg : Cfg) (files : List SourceFile) :
    ((aggregate cfg files).summary.grossTotal = 0 →
      (aggregate cfg files).summary.rate = Rate.intZero) ∧
    (0 < (aggregate cfg files).summary.grossTotal →
      (aggregate cfg files).summary.rate
        = Rate.fixed6 (round6 (((aggregate cfg files).summary.attendTotal : ℚ)
            / ((aggregate cfg files).summary.grossTotal : ℚ)))) ∧
    (∀ q : ℚ, (aggregate cfg files).summary.rate = Rate.fixed6 q →
      |q - ((aggregate cfg files).summary.attendTotal : ℚ)
          / ((aggregate cfg files).summary.grossTotal : ℚ)| ≤ 1 / 2000000) := by
  obtain ⟨_, _, _, hg, ha, _, _, _, hr⟩ := aggregate_fields cfg files
  rw [hg, ha, hr]
  refine ⟨?_, ?_, ?_⟩
  · intro h0
    rw [if_neg (by omega : ¬ 0 < (runState cfg files).grossTotal)]
  · intro hpos
    rw [if_pos hpos]
  · intro q hq
    by_cases hpos : 0 < (runState cfg files).grossTotal
    · rw [if_pos hpos] at hq
      have hq2 : round6 (((runState cfg files).attendTotal : ℚ)
          / ((runState cfg files).grossTotal : ℚ)) = q := by
        simpa using hq
      rw [← hq2]
      unfold round6
      set x : ℚ := ((runState cfg files).attendTotal : ℚ)
          / ((runState cfg files).grossTotal : ℚ) with hx
      have hb := abs_sub_round (x * 1000000)
      rw [abs_sub_comm] at hb
      have heq : ((round (x * 1000000) : ℤ) : ℚ) / 1000000 - x
          = (((round (x * 1000000) : ℤ) : ℚ) - x * 1000000) / 1000000 := by
        ring
      rw [heq, abs_div, abs_of_pos (by norm_num : (0:ℚ) < 1000000)]
      calc |((round (x * 1000000) : ℤ) : ℚ) - x * 1000000| / 1000000
          ≤ (1 / 2) / 1000000 := by gcongr
        _ = 1 / 2000000 := by norm_num
    · rw [if_neg hpos] at hq
      exact absurd hq (by simp)

/-- Witness for C6: an empty run gives the literal zero, and one concrete run
gives the rounded quotient. -/
theorem C6_rate_definition_witness :
    (aggregate cfgW []).summary.rate = Rate.intZero ∧
    (aggregate cfgW [fW]).summary.rate
      = Rate.fixed6 (round6 (((aggregate cfgW [fW]).summary.attendTotal : ℚ)
          / ((aggregate cfgW [fW]).summary.grossTotal : ℚ))) :=
  ⟨(C6_rate_definition cfgW []).1 (by decide),
   (C6_rate_definition cfgW [fW]).2.1 (by decide)⟩

/-- C7: masterRows is sorted with attendance counts non-increasing, ties
broken by key in the modelled locale order, and no key repeats. -/
theorem C7_sorted_ledger (cfg : Cfg) (files : List SourceFile) :
    List.Pairwise
      (fun a b : String × String × Nat =>
        b.2.2 ≤ a.2.2 ∧ (a.2.2 = b.2.2 → strLE a.1 b.1 = true))
      (aggregate cfg files).masterRows ∧
    ((aggregate cfg files).masterRows.map (fun e => e.1)).Nodup := by
  constructor
  · have hs : List.Pairwise rowRel (aggregate cfg files).masterRows := by
      rw [(aggregate_fields cfg files).2.2.1]
      exact List.sorted_insertionSort rowRel _
    refine hs.imp ?_
    intro a b hab
    rcases hab with h | ⟨h1, h2⟩
    · exact ⟨le_of_lt h, fun he => absurd (he ▸ h) (lt_irrefl _)⟩
    · exact ⟨le_of_eq h1.symm, fun _ => h2⟩
  · have hperm := (masterRows_perm cfg files).map (fun e => e.1)
    exact hperm.nodup_iff.mpr (runState_runOk cfg files).1

/-- Witness for C7 on a concrete two-file run. -/
theorem C7_sorted_ledger_witness :
    ((aggregate cfgW [fW, fW2]).masterRows.map (fun e => e.1)).Nodup :=
  (C7_sorted_ledger cfgW [fW, fW2]).2

/-- C8: a file whose decode fails only appends a parse_error entry to the
skipped list, changes nothing else in the run state, the loop continues with
the remaining files unchanged, and the entry reaches the final skipped
list. -/
theorem C8_parse_error_isolated (cfg : Cfg) (s : AggState) (f : SourceFile)
    (hf : f.parsed = none) :
    processFile cfg s f
        = { s with skipped := s.skipped ++ [(f.name, "parse_error")] } ∧
    (∀ rest : List SourceFile,
      (f :: rest).foldl (processFile cfg) s
        = rest.foldl (processFile cfg)
            { s with skipped := s.skipped ++ [(f.name, "parse_error")] }) ∧
    (∀ files : List SourceFile, f ∈ (dupFilter files).1 →
      (f.name, "parse_error") ∈ (aggregate cfg files).skipped) := by
  refine ⟨processFile_none hf, ?_, ?_⟩
  · intro rest
    rw [List.foldl_cons, processFile_none hf]
  · intro files hmem
    rw [(aggregate_fields cfg files).2.1, runState_skipped]
    apply List.mem_append_right
    apply List.mem_map_of_mem
    rw [List.mem_filter]
    exact ⟨hmem, by simp [hf]⟩

/-- Witness for C8: the concrete undecodable file lands in skipped. -/
theorem C8_parse_error_isolated_witness :
    ("bad.csv", "parse_error") ∈ (aggregate cfgW [fBad]).skipped :=
  (C8_parse_error_isolated cfgW (initState []) fBad rfl).2.2 [fBad] (by decide)

/-- C9: grossTotal bounds attendTotal which bounds attendUnique, each event
attendee set sits inside its applicant set, and the run-wide unique attendee
list is the union of the per-event attendee sets. -/
theorem C9_totals_ordered (cfg : Cfg) (files : List SourceFile) :
    (aggregate cfg files).summary.attendTotal
        ≤ (aggregate cfg files).summary.grossTotal ∧
    (aggregate cfg files).summary.attendUnique
        ≤ (aggregate cfg files).summary.attendTotal ∧
    0 ≤ (aggregate cfg files).summary.attendUnique ∧
    (∀ f : SourceFile, fileAttendees cfg f ⊆ fileApplicants cfg f) ∧
    (∀ x, x ∈ (runState cfg files).attendUniq
        ↔ ∃ g ∈ processedFiles files, x ∈ fileAttendees cfg g) := by
  obtain ⟨_, _, _, hg, ha, hu, _, _, _⟩ := aggregate_fields cfg files
  refine ⟨?_, ?_, Nat.zero_le _, ?_, runState_mem_uniq cfg files⟩
  · rw [hg, ha, runState_gross, runState_attend]
    exact List.sum_le_sum (fun f _ => fileAttendees_length_le cfg f)
  · rw [ha, hu, runState_attend]
    exact runState_uniq_len cfg files
  · intro f
    exact (evSets_inv cfg (sourceRows cfg f)).1

/-- Witness for C9 on a concrete run. -/
theorem C9_totals_ordered_witness :
    (aggregate cfgW [fW]).summary.attendTotal
      ≤ (aggregate cfgW [fW]).summary.grossTotal :=
  (C9_totals_ordered cfgW [fW]).1

/-- C10: the ledger holds a record exactly for the keys appearing on at least
one valid row of a processed file, and a key that never entered any attendee
set is kept with count zero rather than dropped. -/
theorem C10_never_attending_kept (cfg : Cfg) (files : List SourceFile) :
    (∀ pk, (∃ nm c, (pk, nm, c) ∈ (aggregate cfg files).masterRows)
        ↔ ∃ g ∈ processedFiles files, ∃ row ∈ sourceRows cfg g,
            getCell row cfg.pkIdx = pk ∧ ¬ getCell row cfg.pkIdx = ""
              ∧ ¬ getCell row cfg.nameIdx = "") ∧
    (∀ pk nm c, (pk, nm, c) ∈ (aggregate cfg files).masterRows →
      (∀ g ∈ processedFiles files, pk ∉ fileAttendees cfg g) → c = 0) := by
  constructor
  · intro pk
    have hkeys : (∃ nm c, (pk, nm, c) ∈ (aggregate cfg files).masterRows)
        ↔ pk ∈ mkeys (runState cfg files).master := by
      constructor
      · rintro ⟨nm, c, hmem⟩
        have h2 := (mem_masterRows_iff cfg files _).mp hmem
        exact List.mem_map_of_mem (fun e => e.1) h2
      · intro hk
        obtain ⟨e, he⟩ := Option.isSome_iff_exists.mp (mfind_isSome_iff.mpr hk)
        have hm := mem_of_mfind_eq_some he
        exact ⟨e.1, e.2, (mem_masterRows_iff cfg files _).mpr hm⟩
    rw [hkeys, runState_mem_mkeys]
    constructor
    · rintro ⟨g, hg, hga⟩
      refine ⟨g, hg, ?_⟩
      have h1 := (evSets_mem_applicants cfg (sourceRows cfg g) pk).mp hga
      exact (firstValidName_isSome_iff cfg pk (sourceRows cfg g)).mp h1
    · rintro ⟨g, hg, hrow⟩
      refine ⟨g, hg, ?_⟩
      exact (evSets_mem_applicants cfg (sourceRows cfg g) pk).mpr
        ((firstValidName_isSome_iff cfg pk (sourceRows cfg g)).mpr hrow)
  · intro pk nm c hmem hnot
    have hf := masterRows_count cfg files hmem
    have hc : mcount (runState cfg files).master pk = c := by simp [mcount, hf]
    have hlen : c = ((processedFiles files).filter
        (fun f => decide (pk ∈ fileAttendees cfg f))).length := by
      rw [← hc, runState_mcount]
    rw [hlen, List.length_eq_zero, List.filter_eq_nil_iff]
    intro g hg
    simp only [decide_eq_true_eq]
    exact hnot g hg

/-- Witness for C10: K2 applied but never attended, yet it has a ledger
record. -/
theorem C10_never_attending_kept_witness :
    ∃ nm c, ("K2", nm, c) ∈ (aggregate cfgW [fW]).masterRows :=
  ((C10_never_attending_kept cfgW [fW]).1 "K2").mpr (by decide)

/-- C4: permuting the input file list leaves grossTotal, attendTotal,
attendUnique and the per-key attendance counts unchanged; only the recorded
names may differ. -/
theorem C4_order_independent (cfg : Cfg) (files files' : List SourceFile)
    (h : files.Perm files') :
    (aggregate cfg files).summary.grossTotal
        = (aggregate cfg files').summary.grossTotal ∧
    (aggregate cfg files).summary.attendTotal
        = (aggregate cfg files').summary.attendTotal ∧
    (aggregate cfg files).summary.attendUnique
        = (aggregate cfg files').summary.attendUnique ∧
    (∀ pk, (mfind (aggregate cfg files).masterRows pk).map (fun e => e.2)
        = (mfind (aggregate cfg files').masterRows pk).map (fun e => e.2)) := by
  have hproc := processedFiles_perm h
  have hmem : ∀ pk, pk ∈ mkeys (runState cfg files).master
      ↔ pk ∈ mkeys (runState cfg files').master := by
    intro pk
    rw [runState_mem_mkeys, runState_mem_mkeys]
    constructor
    · rintro ⟨g, hg, hx⟩
      exact ⟨g, hproc.mem_iff.mp hg, hx⟩
    · rintro ⟨g, hg, hx⟩
      exact ⟨g, hproc.mem_iff.mpr hg, hx⟩
  refine ⟨?_, ?_, ?_, ?_⟩
  · rw [(aggregate_fields cfg files).2.2.2.1, (aggregate_fields cfg files').2.2.2.1,
      runState_gross, runState_gross]
    exact (hproc.map _).sum_eq
  · rw [(aggregate_fields cfg files).2.2.2.2.1,
      (aggregate_fields cfg files').2.2.2.2.1, runState_attend, runState_attend]
    exact (hproc.map _).sum_eq
  · rw [(aggregate_fields cfg files).2.2.2.2.2.1,
      (aggregate_fields cfg files').2.2.2.2.2.1]
    have h1 : (runState cfg files).attendUniq.Perm (runState cfg files').attendUniq := by
      rw [List.perm_ext_iff_of_nodup (runState_runOk cfg files).2
        (runState_runOk cfg files').2]
      intro x
      rw [runState_mem_uniq, runState_mem_uniq]
      constructor
      · rintro ⟨g, hg, hx⟩
        exact ⟨g, hproc.mem_iff.mp hg, hx⟩
      · rintro ⟨g, hg, hx⟩
        exact ⟨g, hproc.mem_iff.mpr hg, hx⟩
    exact h1.length_eq
  · intro pk
    have hndL : (mkeys (aggregate cfg files).masterRows).Nodup := by
      have hp := (masterRows_perm cfg files).map
        (fun e : String × String × Nat => e.1)
      exact hp.nodup_iff.mpr (runState_runOk cfg files).1
    have hndR : (mkeys (aggregate cfg files').masterRows).Nodup := by
      have hp := (masterRows_perm cfg files').map
        (fun e : String × String × Nat => e.1)
      exact hp.nodup_iff.mpr (runState_runOk cfg files').1
    have hL : mfind (aggregate cfg files).masterRows pk
        = mfind (runState cfg files).master pk :=
      mfind_perm (masterRows_perm cfg files) hndL pk
    have hR : mfind (aggregate cfg files').masterRows pk
        = mfind (runState cfg files').master pk :=
      mfind_perm (masterRows_perm cfg files') hndR pk
    rw [hL, hR, mfind_map_count, mfind_map_count]
    have hcnt : mcount (runState cfg files).master pk
        = mcount (runState cfg files').master pk := by
      rw [runState_mcount, runState_mcount]
      exact (hproc.filter _).length_eq
    by_cases hm : pk ∈ mkeys (runState cfg files).master
    · rw [if_pos hm, if_pos ((hmem pk).mp hm), hcnt]
    · rw [if_neg hm, if_neg (fun hx => hm ((hmem pk).mpr hx))]

/-- Witness for C4: swapping the two concrete files preserves grossTotal. -/
theorem C4_order_independent_witness :
    (aggregate cfgW [fW, fW2]).summary.grossTotal
      = (aggregate cfgW [fW2, fW]).summary.grossTotal :=
  (C4_order_independent cfgW [fW, fW2] [fW2, fW] (List.Perm.swap fW2 fW [])).1
